import Mathlib

/-!
Verification of the transcript-write repository core against its specification.

The development shallowly embeds the Python sources:
 - `src/src/chunker.py`            (SmartChunker, Chunk)
 - `src/src/llm_processor.py`      (ProcessedChunk, retry decorator semantics)
 - `src/src/state_manager.py`      (ProcessingState, StateManager)
 - `src/src/resumable_processor.py` (ResumableProcessor.process_all_chunks)

Text is modelled as `List Char`, Python machine floats that only ever hold
exact decimal cost values are modelled as `Rat`, and the remote LLM call is
a parameter of the execution functions.  File-system reads and writes are
modelled as explicit inputs and outputs (a trace of persisted states).
Wall-clock timestamp fields (started_at, last_updated) are omitted:
update_timestamp touches nothing else and no claim mentions them.
-/

namespace TranscriptWrite

/-! ## Python string primitives -/

/-- ASCII whitespace, the characters stripped by Python str.strip and matched
by the regex class backslash-s on the inputs of interest. -/
def isPySpace (c : Char) : Bool :=
  c = ' ' || c = '\t' || c = '\n' || c = '\r' || c = '\x0b' || c = '\x0c'

/-- Sentence-ending punctuation, the regex class [.!?]. -/
def isSentPunct (c : Char) : Bool :=
  c = '.' || c = '!' || c = '?'

/-- Characters matched by the regex class of digits and colons. -/
def isDigitColon (c : Char) : Bool :=
  c.isDigit || c = ':'

/-- Python str.strip: drop whitespace from both ends. -/
def pyStrip (l : List Char) : List Char :=
  ((l.dropWhile isPySpace).reverse.dropWhile isPySpace).reverse

/-- Python slice text[a:b] for non-negative a and b (with clamping). -/
def pySlice (l : List Char) (a b : Nat) : List Char :=
  (l.drop a).take (b - a)

/-- Python tail slice text[-k:] for a non-negative k.  Note the Python
quirk: for k = 0 the slice text[-0:] is text[0:], the whole string. -/
def pyTailSlice (l : List Char) (k : Nat) : List Char :=
  if k = 0 then l else l.drop (l.length - k)

/-! ## Regex scanning

`scanMatches tryAt l pos` models re.finditer: it tries `tryAt` (a matcher
returning a match length) at every position from left to right, records
matches as (start, end) pairs and resumes after each match, exactly like
finditer with the non-zero-width patterns used in chunker.py. -/

def scanMatchesAux (tryAt : List Char → Option Nat) :
    List Char → Nat → Nat → List (Nat × Nat)
  | [], _, _ => []
  | _ :: rest, pos, skip + 1 => scanMatchesAux tryAt rest (pos + 1) skip
  | c :: rest, pos, 0 =>
    match tryAt (c :: rest) with
    | some n =>
        (pos, pos + n) :: scanMatchesAux tryAt rest (pos + 1) (max n 1 - 1)
    | none => scanMatchesAux tryAt rest (pos + 1) 0

def scanMatches (tryAt : List Char → Option Nat) (l : List Char) (pos : Nat) :
    List (Nat × Nat) :=
  scanMatchesAux tryAt l pos 0

/-- Matcher for the pattern of two consecutive newlines (a paragraph break). -/
def paraAt : List Char → Option Nat
  | '\n' :: '\n' :: _ => some 2
  | _ => none

/-- Matcher for the pattern [.!?] followed by one whitespace character. -/
def sentAt : List Char → Option Nat
  | a :: b :: _ => if isSentPunct a && isPySpace b then some 2 else none
  | _ => none

/-- Matcher for a bracketed non-empty run of digits and colons (a timestamp
marker). -/
def tsAt : List Char → Option Nat
  | '[' :: rest =>
      match rest.drop (rest.takeWhile isDigitColon).length with
      | ']' :: _ =>
          if (rest.takeWhile isDigitColon).length > 0
          then some ((rest.takeWhile isDigitColon).length + 2) else none
      | _ => none
  | _ => none

/-- First match of sentence punctuation followed by a maximal non-empty
whitespace run; returns the end offset of the match (re.search with the
greedy pattern [.!?] backslash-s +). -/
def searchSentSpaceAux : List Char → Nat → Option Nat
  | [], _ => none
  | [_], _ => none
  | a :: b :: rest, pos =>
      if isSentPunct a && isPySpace b then
        some (pos + 2 + (rest.takeWhile isPySpace).length)
      else searchSentSpaceAux (b :: rest) (pos + 1)

def searchSentSpace (l : List Char) : Option Nat :=
  searchSentSpaceAux l 0

/-! ## SmartChunker (chunker.py) -/

structure Chunk where
  index : Nat
  text : List Char
  start_timestamp : List Char
  context_buffer : Option (List Char)
deriving DecidableEq, Repr

structure SmartChunker where
  chunk_size : Nat
  overlap : Nat
deriving DecidableEq, Repr

/-- SmartChunker._find_best_split: prefer the last paragraph break in the
search window, else the last sentence end, else the last timestamp marker
start, else the raw target offset.  The source binds
search_start = max(start, target_end - 100) and
search_text = text[search_start : target_end + 50]; both locals are inlined
here. -/
def findBestSplit (text : List Char) (start targetEnd : Nat) : Nat :=
  match (scanMatches paraAt
      (pySlice text (max start (targetEnd - 100)) (targetEnd + 50)) 0).getLast? with
  | some m => max start (targetEnd - 100) + m.2
  | none =>
    match (scanMatches sentAt
        (pySlice text (max start (targetEnd - 100)) (targetEnd + 50)) 0).getLast? with
    | some m => max start (targetEnd - 100) + m.2
    | none =>
      match (scanMatches tsAt
          (pySlice text (max start (targetEnd - 100)) (targetEnd + 50)) 0).getLast? with
      | some m => max start (targetEnd - 100) + m.1
      | none => targetEnd

/-- SmartChunker._get_context_buffer.  The source binds
text = previous_text[-(overlap + 50):], inlined here as the tail slice. -/
def getContextBuffer (ck : SmartChunker) (prev : List Char) : List Char :=
  if prev.length ≤ ck.overlap then prev
  else
    match searchSentSpace (pyTailSlice prev (ck.overlap + 50)) with
    | some e => pyStrip ((pyTailSlice prev (ck.overlap + 50)).drop e)
    | none => pyStrip (pyTailSlice prev ck.overlap)

/-- Matcher for a full timestamp [HH:MM:SS]; returns the captured group. -/
def tsFullAt : List Char → Option (List Char)
  | '[' :: a :: b :: ':' :: c :: d :: ':' :: e :: f :: ']' :: _ =>
      if a.isDigit && b.isDigit && c.isDigit && d.isDigit && e.isDigit && f.isDigit
      then some [a, b, ':', c, d, ':', e, f]
      else none
  | _ => none

/-- SmartChunker._extract_first_timestamp. -/
def extractFirstTimestamp : List Char → Option (List Char)
  | [] => none
  | c :: rest =>
    match tsFullAt (c :: rest) with
    | some g => some g
    | none => extractFirstTimestamp rest

/-- The while-loop of SmartChunker.chunk_transcript, with an explicit fuel
bound on the number of iterations.  `none` means the fuel was exhausted,
which models non-termination of the Python loop when no iteration bound
suffices.  Each Python iteration either advances current_pos or leaves it
unchanged for ever after, so fuel length+1 is enough whenever the loop
terminates at all. -/
def chunkLoop (ck : SmartChunker) (text : List Char) :
    Nat → Nat → Nat → List Char → Option (List Chunk)
  | 0, _, _, _ => none
  | fuel + 1, currentPos, chunkIndex, prevText =>
    if currentPos < text.length then
      let endPos0 := min (currentPos + ck.chunk_size) text.length
      let endPos := if endPos0 < text.length then findBestSplit text currentPos endPos0
                    else endPos0
      let chunkText := pyStrip (pySlice text currentPos endPos)
      if chunkText = [] then
        chunkLoop ck text fuel endPos chunkIndex prevText
      else
        let ctx := if prevText ≠ [] ∧ 0 < chunkIndex
                   then some (getContextBuffer ck prevText) else none
        let ts := (extractFirstTimestamp chunkText).getD ("00:00:00".toList)
        match chunkLoop ck text fuel endPos (chunkIndex + 1) chunkText with
        | some rest => some (Chunk.mk chunkIndex chunkText ts ctx :: rest)
        | none => none
    else some []

/-- SmartChunker.chunk_transcript, run with the canonical fuel. -/
def chunkTranscript (ck : SmartChunker) (text : List Char) : Option (List Chunk) :=
  chunkLoop ck text (text.length + 1) 0 0 []

/-! ## MD5 (hashlib.md5, used by StateManager._generate_file_id)

A direct implementation of RFC 1321 over natural numbers (all words are
kept below 2^32 by explicit reduction). -/

/-- Reduction modulo 2^32. -/
def u32 (n : Nat) : Nat := n % 4294967296

/-- Left rotation of a 32-bit word. -/
def rotl32 (x s : Nat) : Nat :=
  u32 (x <<< s) + (x >>> (32 - s)) % 4294967296

/-- The 64 sine-derived round constants of MD5. -/
def md5K : List Nat :=
  [3614090360, 3905402710, 606105819, 3250441966, 4118548399, 1200080426,
   2821735955, 4249261313, 1770035416, 2336552879, 4294925233, 2304563134,
   1804603682, 4254626195, 2792965006, 1236535329, 4129170786, 3225465664,
   643717713, 3921069994, 3593408605, 38016083, 3634488961, 3889429448,
   568446438, 3275163606, 4107603335, 1163531501, 2850285829, 4243563512,
   1735328473, 2368359562, 4294588738, 2272392833, 1839030562, 4259657740,
   2763975236, 1272893353, 4139469664, 3200236656, 681279174, 3936430074,
   3572445317, 76029189, 3654602809, 3873151461, 530742520, 3299628645,
   4096336452, 1126891415, 2878612391, 4237533241, 1700485571, 2399980690,
   4293915773, 2240044497, 1873313359, 4264355552, 2734768916, 1309151649,
   4149444226, 3174756917, 718787259, 3951481745]

/-- The per-round left-rotation amounts of MD5. -/
def md5S : List Nat :=
  [7, 12, 17, 22, 7, 12, 17, 22, 7, 12, 17, 22, 7, 12, 17, 22,
   5, 9, 14, 20, 5, 9, 14, 20, 5, 9, 14, 20, 5, 9, 14, 20,
   4, 11, 16, 23, 4, 11, 16, 23, 4, 11, 16, 23, 4, 11, 16, 23,
   6, 10, 15, 21, 6, 10, 15, 21, 6, 10, 15, 21, 6, 10, 15, 21]

/-- Bitwise complement of a 32-bit word. -/
def not32 (x : Nat) : Nat := 4294967295 - u32 x

/-- One MD5 round applied to the register quadruple, for round index i and
message schedule m. -/
def md5Step (m : Nat → Nat) (st : Nat × Nat × Nat × Nat) (i : Nat) :
    Nat × Nat × Nat × Nat :=
  let a := st.1
  let b := st.2.1
  let c := st.2.2.1
  let d := st.2.2.2
  let fg : Nat × Nat :=
    if i < 16 then ((b &&& c) ||| (not32 b &&& d), i)
    else if i < 32 then ((d &&& b) ||| (not32 d &&& c), (5 * i + 1) % 16)
    else if i < 48 then (b ^^^ c ^^^ d, (3 * i + 5) % 16)
    else (c ^^^ (b ||| not32 d), (7 * i) % 16)
  let f := u32 (fg.1 + a + md5K.getD i 0 + m fg.2)
  (d, u32 (b + rotl32 f (md5S.getD i 0)), b, c)

/-- Little-endian decoding of the g-th 32-bit word of a 64-byte block. -/
def blockWord (block : List Nat) (g : Nat) : Nat :=
  block.getD (4 * g) 0 + 256 * block.getD (4 * g + 1) 0 +
    65536 * block.getD (4 * g + 2) 0 + 16777216 * block.getD (4 * g + 3) 0

/-- Process one 64-byte block. -/
def md5Block (h : Nat × Nat × Nat × Nat) (block : List Nat) :
    Nat × Nat × Nat × Nat :=
  let st := (List.range 64).foldl (md5Step (blockWord block)) h
  (u32 (h.1 + st.1), u32 (h.2.1 + st.2.1), u32 (h.2.2.1 + st.2.2.1),
   u32 (h.2.2.2 + st.2.2.2))

/-- Little-endian encoding of n into k bytes. -/
def leBytes : Nat → Nat → List Nat
  | 0, _ => []
  | k + 1, n => n % 256 :: leBytes k (n / 256)

/-- MD5 padding: a 0x80 byte, zeros to 56 mod 64, then the bit length as a
little-endian 64-bit quantity. -/
def md5Pad (msg : List Nat) : List Nat :=
  let k := (64 + 56 - ((msg.length + 1) % 64)) % 64
  msg ++ [128] ++ List.replicate k 0 ++ leBytes 8 ((8 * msg.length) % 18446744073709551616)

/-- Split a byte list into blocks of 64, collecting the current partial
block in reverse in the accumulator. -/
def toBlocksAux : List Nat → List Nat → List (List Nat)
  | [], acc => if acc = [] then [] else [acc.reverse]
  | b :: rest, acc =>
    if acc.length = 63 then (b :: acc).reverse :: toBlocksAux rest []
    else toBlocksAux rest (b :: acc)

/-- Split a byte list into 64-byte blocks. -/
def toBlocks (l : List Nat) : List (List Nat) :=
  toBlocksAux l []

/-- The 16-byte MD5 digest of a byte list. -/
def md5Digest (msg : List Nat) : List Nat :=
  let h := (toBlocks (md5Pad msg)).foldl md5Block
    (1732584193, 4023233417, 2562383102, 271733878)
  leBytes 4 h.1 ++ leBytes 4 h.2.1 ++ leBytes 4 h.2.2.1 ++ leBytes 4 h.2.2.2

/-- Lowercase hex digit. -/
def hexDigit (n : Nat) : Char :=
  if n < 10 then Char.ofNat (48 + n) else Char.ofNat (87 + n)

/-- Lowercase hex rendering of a byte. -/
def hexByte (b : Nat) : List Char := [hexDigit (b / 16), hexDigit (b % 16)]

/-- hashlib.md5(bytes).hexdigest(). -/
def md5Hex (msg : List Nat) : String :=
  String.mk ((md5Digest msg).map hexByte).flatten

/-- UTF-8 encoding of one code point. -/
def utf8Bytes (n : Nat) : List Nat :=
  if n < 128 then [n]
  else if n < 2048 then [192 + n / 64, 128 + n % 64]
  else if n < 65536 then [224 + n / 4096, 128 + n / 64 % 64, 128 + n % 64]
  else [240 + n / 262144, 128 + n / 4096 % 64, 128 + n / 64 % 64, 128 + n % 64]

/-- UTF-8 bytes of a string (Python str.encode()). -/
def strBytes (s : String) : List Nat :=
  (s.data.map (fun c => utf8Bytes c.toNat)).flatten

/-! ## ProcessedChunk and ProcessingState (llm_processor.py, state_manager.py) -/

/-- Result of LLM processing of one chunk (llm_processor.ProcessedChunk).
Costs are exact decimal values, modelled as rationals. -/
structure ProcessedChunk where
  chunk_index : Nat
  original_text : List Char
  cleaned_text : List Char
  input_tokens : Nat
  output_tokens : Nat
  cost : Rat
  model : String
  provider : String
deriving DecidableEq, Repr

/-- The result-cache dictionary built in add_completed_chunk carries exactly
the eight fields of ProcessedChunk, so it is represented by the same
structure. -/
abbrev ResultDict := ProcessedChunk

/-- The dict literal built at state_manager.py lines 82-91. -/
def resultDictOf (r : ProcessedChunk) : ResultDict :=
  { chunk_index := r.chunk_index
    original_text := r.original_text
    cleaned_text := r.cleaned_text
    input_tokens := r.input_tokens
    output_tokens := r.output_tokens
    cost := r.cost
    model := r.model
    provider := r.provider }

/-- Rebuilding a ProcessedChunk from a cached dict (resumable_processor.py
lines 161-172). -/
def rebuildResult (d : ResultDict) : ProcessedChunk :=
  { chunk_index := d.chunk_index
    original_text := d.original_text
    cleaned_text := d.cleaned_text
    input_tokens := d.input_tokens
    output_tokens := d.output_tokens
    cost := d.cost
    model := d.model
    provider := d.provider }

/-- state_manager.ProcessingState.  The wall-clock fields started_at and
last_updated are omitted (update_timestamp touches only them); failed_chunks
is a dict keyed by str(chunk_index), modelled as an insertion-ordered
association list keyed by the index itself (str is injective on Nat). -/
structure ProcessingState where
  version : String
  file_id : String
  file_name : String
  video_title : String
  status : String
  config : List (String × String)
  total_chunks : Nat
  completed_chunks : List Nat
  failed_chunks : List (Nat × String)
  processed_results : List ResultDict
  estimated_cost : Rat
  actual_cost : Rat
  total_input_tokens : Nat
  total_output_tokens : Nat
deriving DecidableEq, Repr

/-- Python list.sort(): a stable ascending sort, modelled by insertion
sort (extensionally equal to any stable sort on the same order). -/
def pySortNat (l : List Nat) : List Nat :=
  l.insertionSort (· ≤ ·)

/-- Replace the first entry with the given chunk_index, else append: the
update-or-append loop of add_completed_chunk (lines 93-103). -/
def upsertResult : List ResultDict → ResultDict → List ResultDict
  | [], d => [d]
  | q :: qs, d =>
    if q.chunk_index = d.chunk_index then d :: qs else q :: upsertResult qs d

/-- ProcessingState.add_completed_chunk. -/
def addCompletedChunk (s : ProcessingState) (r : ProcessedChunk) : ProcessingState :=
  let completed :=
    if r.chunk_index ∈ s.completed_chunks then s.completed_chunks
    else pySortNat (s.completed_chunks ++ [r.chunk_index])
  { s with
    completed_chunks := completed
    actual_cost := s.actual_cost + r.cost
    total_input_tokens := s.total_input_tokens + r.input_tokens
    total_output_tokens := s.total_output_tokens + r.output_tokens
    processed_results := upsertResult s.processed_results (resultDictOf r) }

/-- Dict upsert for failed_chunks: replace the value in place if the key is
present, else append (Python dict assignment preserves insertion order). -/
def upsertFailed : List (Nat × String) → Nat → String → List (Nat × String)
  | [], i, m => [(i, m)]
  | (j, m0) :: rest, i, m =>
    if j = i then (i, m) :: rest else (j, m0) :: upsertFailed rest i m

/-- ProcessingState.add_failed_chunk. -/
def addFailedChunk (s : ProcessingState) (i : Nat) (msg : String) : ProcessingState :=
  { s with failed_chunks := upsertFailed s.failed_chunks i msg }

/-- ProcessingState.is_resumable. -/
def isResumable (s : ProcessingState) : Bool :=
  (s.status == "processing" || s.status == "paused") &&
    decide (s.completed_chunks.length < s.total_chunks)

/-! ## StateManager (state_manager.py) -/

/-- StateManager._generate_file_id: the first 12 hex characters of the MD5
of "name:size". -/
def generateFileId (fileName : String) (fileSize : Nat) : String :=
  String.mk ((md5Hex (strBytes (fileName ++ ":" ++ toString fileSize))).toList.take 12)

/-- StateManager.create_new_state.  The source calls
_generate_file_id(file_name) without a size argument, so file_size takes its
Python default 0. -/
def createNewState (fileName videoTitle : String) (totalChunks : Nat)
    (config : List (String × String)) (estimatedCost : Rat) : ProcessingState :=
  { version := "1.0"
    file_id := generateFileId fileName 0
    file_name := fileName
    video_title := videoTitle
    status := "idle"
    config := config
    total_chunks := totalChunks
    completed_chunks := []
    failed_chunks := []
    processed_results := []
    estimated_cost := estimatedCost
    actual_cost := 0
    total_input_tokens := 0
    total_output_tokens := 0 }

/-- Outcome of attempting to read and decode one on-disk file: the file may
be absent, present but failing to decode (JSON error or bad field set, all
caught by the broad except clause), or valid. -/
inductive FileRead (α : Type) where
  | absent
  | corrupt
  | valid (a : α)
deriving DecidableEq

/-- A file is unusable when absent or corrupt. -/
def FileRead.bad {α : Type} : FileRead α → Prop
  | .valid _ => False
  | _ => True

instance {α : Type} (f : FileRead α) : Decidable f.bad := by
  cases f <;> simp [FileRead.bad] <;> infer_instance

/-- StateManager.read_state: return the decoded primary state file; on any
decode failure fall back to the backup when it exists and decodes; if the
primary is absent, or both are unusable, return none. -/
def readState (primary backup : FileRead ProcessingState) :
    Option ProcessingState :=
  match primary with
  | .absent => none
  | .valid s => some s
  | .corrupt =>
    match backup with
    | .valid b => some b
    | _ => none

/-! ## Remote-call errors and retry semantics (llm_processor.py)

The provider SDK exceptions are modelled as a closed error type; both
provider SDKs expose the same three transient classes. -/

inductive ApiError where
  | rateLimit
  | connectionFailure
  | internalServer
  | authentication
  | other (msg : String)
deriving DecidableEq, Repr

/-- ResumableProcessor._is_recoverable_error: isinstance against the rate
limit, connection and internal-server exception classes of both SDKs. -/
def isRecoverableError : ApiError → Bool
  | .rateLimit => true
  | .connectionFailure => true
  | .internalServer => true
  | _ => false

/-- Model of str(e) for the provider exceptions. -/
def errMessage : ApiError → String
  | .rateLimit => "rate limit"
  | .connectionFailure => "connection error"
  | .internalServer => "internal server error"
  | .authentication => "authentication error"
  | .other m => m

/-- The retry predicate installed on LLMProcessor.process_chunk: the
decorator argument is retry_if_exception_type(()), an isinstance check
against the empty tuple of classes, so it holds for no exception. -/
def processChunkRetryPred : ApiError → Bool := fun _ => false

/-- The wait schedule configured on the decorator,
wait_exponential(multiplier=1, min=2, max=10): the backoff before attempt
n+1 (never consulted, because the retry predicate above never fires). -/
def waitExponential (attempt : Nat) : Rat :=
  max 2 (min 10 (2 ^ (attempt - 1)))

/-- Outcome of a tenacity-decorated call, recording the number of attempts
actually made: success, the original exception re-raised because the retry
predicate rejected it, or RetryError after the stop condition. -/
inductive RetryOutcome (α : Type) where
  | success (a : α) (attempts : Nat)
  | raised (e : ApiError) (attempts : Nat)
  | exhausted (e : ApiError) (attempts : Nat)
deriving DecidableEq

/-- Tenacity retry loop: after a failing attempt the retry predicate is
consulted first (a rejected exception is re-raised as is); a retryable
failure checks the stop condition and either raises RetryError or sleeps
and retries.  `attempt` is the 1-based attempt number and `left` the
number of further attempts stop_after_attempt still allows. -/
def retryLoop {α : Type} (shouldRetry : ApiError → Bool)
    (call : Nat → Except ApiError α) : Nat → Nat → RetryOutcome α
  | attempt, left =>
    match call attempt with
    | .ok a => .success a attempt
    | .error e =>
      if !shouldRetry e then .raised e attempt
      else
        match left with
        | 0 => .exhausted e attempt
        | left2 + 1 => retryLoop shouldRetry call (attempt + 1) left2

/-- LLMProcessor.process_chunk as seen by a caller: the underlying provider
call (a function of the chunk, the same on every attempt) wrapped in the
retry decorator with stop_after_attempt(3) and the empty retry predicate.
The first attempt is number 1 and 2 retries remain after it. -/
def processChunkCall (api : Chunk → Except ApiError ProcessedChunk) (c : Chunk) :
    RetryOutcome ProcessedChunk :=
  retryLoop processChunkRetryPred (fun _ => api c) 1 2

/-! ## ResumableProcessor.process_all_chunks (resumable_processor.py) -/

/-- Observable trace of one run: indices of chunks for which the remote
call was invoked, progress-callback invocations (current, total, status),
and every state value passed to write_state, in order. -/
structure RunTrace where
  calls : List Nat
  progress : List (Nat × Nat × String)
  writes : List ProcessingState
deriving DecidableEq

def emptyTrace : RunTrace := ⟨[], [], []⟩

/-- Concatenation of traces in chronological order. -/
def consTrace (t1 t2 : RunTrace) : RunTrace :=
  ⟨t1.calls ++ t2.calls, t1.progress ++ t2.progress, t1.writes ++ t2.writes⟩

/-- How process_all_chunks returns to its caller: a normal return carrying
the results list, the ValueError for a missing state, the PauseRequested
exception, or a propagated provider error after the crash bookkeeping. -/
inductive RunOutcome where
  | ok (results : List ProcessedChunk)
  | noState
  | paused
  | crashed (msg : String)
deriving DecidableEq

/-- Result of the per-chunk loop: outcome, final in-memory state, trace. -/
structure RunStep where
  outcome : RunOutcome
  state : ProcessingState
  trace : RunTrace
deriving DecidableEq

/-- Order on results by chunk index. -/
def keyLe (a b : ProcessedChunk) : Prop := a.chunk_index ≤ b.chunk_index

instance : DecidableRel keyLe := fun a b => Nat.decLe a.chunk_index b.chunk_index

/-- Sort a result list by chunk index: results.sort with the chunk_index
key, a stable ascending sort modelled by insertion sort. -/
def sortByIndex (l : List ProcessedChunk) : List ProcessedChunk :=
  l.insertionSort keyLe

/-- The for-loop of process_all_chunks (lines 177-255) together with the
surrounding exception handlers.  `pause` is the value of the pause event
during the run (it is set only from outside the loop). -/
def runLoop (api : Chunk → Except ApiError ProcessedChunk) (pause : Bool) :
    List Chunk → ProcessingState → List ProcessedChunk → RunStep
  | [], st, results =>
    -- loop finished: status completed, persist, return results and summary
    let st2 := { st with status := "completed" }
    ⟨.ok results, st2, ⟨[], [], [st2]⟩⟩
  | c :: rest, st, results =>
    if c.index ∈ st.completed_chunks then
      let ev := (st.completed_chunks.length, st.total_chunks, "skipped")
      let r := runLoop api pause rest st results
      ⟨r.outcome, r.state, consTrace ⟨[], [ev], []⟩ r.trace⟩
    else if pause then
      let st2 := { st with status := "paused" }
      ⟨.paused, st2, ⟨[], [], [st2]⟩⟩
    else
      let ev := (st.completed_chunks.length, st.total_chunks, "processing")
      match processChunkCall api c with
      | .success r _ =>
        let results2 := sortByIndex (results ++ [r])
        let st2 := addCompletedChunk st r
        let ev2 := (st2.completed_chunks.length, st2.total_chunks, "completed")
        let k := runLoop api pause rest st2 results2
        ⟨k.outcome, k.state, consTrace ⟨[c.index], [ev, ev2], [st2]⟩ k.trace⟩
      | .raised e _ =>
        let st2 := addFailedChunk st c.index (errMessage e)
        if isRecoverableError e then
          -- failure recorded and persisted; the loop continues
          let k := runLoop api pause rest st2 results
          ⟨k.outcome, k.state, consTrace ⟨[c.index], [ev], [st2]⟩ k.trace⟩
        else
          -- crash path: persist the failure, mark crashed, persist, re-raise;
          -- the outer handler marks crashed again and persists a third time
          let st3 := { st2 with status := "crashed" }
          ⟨.crashed (errMessage e), st3, ⟨[c.index], [ev], [st2, st3, st3]⟩⟩
      | .exhausted _ _ =>
        -- tenacity would raise RetryError here; unreachable because the
        -- installed retry predicate never fires (processChunkCall_eq below)
        let st2 := addFailedChunk st c.index "RetryError"
        let st3 := { st2 with status := "crashed" }
        ⟨.crashed "RetryError", st3, ⟨[c.index], [ev], [st2, st3, st3]⟩⟩

/-- Result of process_all_chunks: outcome, final in-memory state when one
was loaded, and the trace. -/
structure RunResult where
  outcome : RunOutcome
  state : Option ProcessingState
  trace : RunTrace
deriving DecidableEq

/-- ResumableProcessor.process_all_chunks.  `stored` is the persisted state
that read_state returns during the call (both reads in the source see the
same stored value).  When resume is requested but the stored state is
missing or not resumable, the call is demoted to the non-resume branch;
that branch raises ValueError exactly when the stored state is absent.
Either way, a present stored state is the one used, so the run proceeds
identically for both values of `resume`; the parameter is kept to mirror
the interface. -/
def processAllChunks (stored : Option ProcessingState) (chunks : List Chunk)
    (api : Chunk → Except ApiError ProcessedChunk) (pause resume : Bool) :
    RunResult :=
  let _ := resume && (stored.elim false isResumable)
  match stored with
  | none => ⟨.noState, none, emptyTrace⟩
  | some s =>
    let st0 := { s with status := "processing" }
    let results0 := sortByIndex (s.processed_results.map rebuildResult)
    let step := runLoop api pause chunks st0 results0
    ⟨step.outcome, some step.state, consTrace ⟨[], [], [st0]⟩ step.trace⟩

/-! ## Operation sequences on a job state (for the invariants claims) -/

/-- One mutation of a ProcessingState performed by the runner. -/
inductive StateOp where
  | complete (r : ProcessedChunk)
  | fail (idx : Nat) (msg : String)
deriving DecidableEq

/-- Apply a sequence of add_completed_chunk / add_failed_chunk calls. -/
def applyOps (s : ProcessingState) : List StateOp → ProcessingState
  | [] => s
  | .complete r :: rest => applyOps (addCompletedChunk s r) rest
  | .fail i m :: rest => applyOps (addFailedChunk s i m) rest

/-! ## Small shared facts -/

/-- A default chunk for getD-style indexing. -/
def defaultChunk : Chunk := ⟨0, [], [], none⟩

theorem rebuild_resultDict (r : ProcessedChunk) :
    rebuildResult (resultDictOf r) = r := rfl

theorem processChunkCall_ok {api : Chunk → Except ApiError ProcessedChunk}
    {c : Chunk} {r : ProcessedChunk} (h : api c = .ok r) :
    processChunkCall api c = .success r 1 := by
  unfold processChunkCall retryLoop
  rw [h]

theorem processChunkCall_err {api : Chunk → Except ApiError ProcessedChunk}
    {c : Chunk} {e : ApiError} (h : api c = .error e) :
    processChunkCall api c = .raised e 1 := by
  unfold processChunkCall retryLoop
  rw [h]
  rfl

/-! ## C7: read recovery -/

/-- C7: read_state returns the decoded primary state file when it parses; on
any decode failure of the primary it returns the backup file content when
the backup exists and is valid; and when both primary and backup are absent
or corrupt it returns none rather than raising. -/
theorem C7_read_recovery :
    (∀ (s : ProcessingState) (b : FileRead ProcessingState),
        readState (.valid s) b = some s) ∧
    (∀ b : ProcessingState, readState .corrupt (.valid b) = some b) ∧
    (∀ p b : FileRead ProcessingState, p.bad → b.bad → readState p b = none) := by
  refine ⟨fun s b => rfl, fun b => rfl, fun p b hp hb => ?_⟩
  cases p <;> cases b <;> first
    | rfl
    | exact hp.elim
    | exact hb.elim

/-- Witness for C7 at a concrete input: both files corrupt gives none. -/
theorem C7_read_recovery_witness :
    readState (.corrupt) (.corrupt) = none :=
  C7_read_recovery.2.2 .corrupt .corrupt trivial trivial

/-! ## C9: missing persisted state -/

/-- C9: when read_state returns none, process_all_chunks raises ValueError
(for resume=false directly, and for resume=true via demotion to the
non-resume branch), making no remote call, writing no state and emitting no
progress; start_new_job must have been called first. -/
theorem C9_missing_state_errors :
    ∀ (chunks : List Chunk) (api : Chunk → Except ApiError ProcessedChunk)
      (pause resume : Bool),
      processAllChunks none chunks api pause resume =
        ⟨.noState, none, ⟨[], [], []⟩⟩ :=
  fun _ _ _ _ => rfl

/-! ## C3: the retry policy is dead code -/

/-- C3 is contradicted by the code: the decorator on process_chunk is
configured with retry_if_exception_type(()), so its retry predicate rejects
every exception; a call that fails with a retryable-classified rate-limit
error is attempted exactly once and the error propagates to the caller
immediately, instead of being retried up to 3 attempts with exponential
backoff as the spec states. -/
theorem C3_retry_never_fires :
    (∀ e, processChunkRetryPred e = false) ∧
    processChunkCall (fun _ => .error .rateLimit) defaultChunk =
      .raised .rateLimit 1 ∧
    isRecoverableError .rateLimit = true :=
  ⟨fun _ => rfl, rfl, rfl⟩

/-! ## C8: job identity ignores the file size -/

set_option maxRecDepth 4000 in
/-- C8 fails as stated: create_new_state passes only the file name to
_generate_file_id, so the size component of the hash input is always the
default 0; for a source named test.srt of size 7 the produced id differs
from the hash of name and size. -/
theorem C8_counterexample :
    (createNewState "test.srt" "Title" 5 [] 0).file_id ≠
      generateFileId "test.srt" 7 := by decide

/-- C8 amended: the file_id of a state produced by create_new_state is
derived deterministically from the stable MD5 hash of the source name
alone, the size component of the hash input being fixed at its default 0;
same name gives the same id regardless of source size. -/
theorem C8_amended :
    ∀ (name title : String) (total : Nat) (config : List (String × String))
      (est : Rat),
      (createNewState name title total config est).file_id =
        generateFileId name 0 :=
  fun _ _ _ _ _ => rfl

/-! ## State invariants (C2, C10) -/

theorem pySortNat_perm (l : List Nat) : List.Perm (pySortNat l) l :=
  List.perm_insertionSort _ l

theorem mem_pySortNat {i : Nat} {l : List Nat} : i ∈ pySortNat l ↔ i ∈ l :=
  (pySortNat_perm l).mem_iff

theorem pySortNat_sorted (l : List Nat) : (pySortNat l).Sorted (· ≤ ·) :=
  List.sorted_insertionSort _ l

/-- Key list of a result cache. -/
def keysOf (rs : List ResultDict) : List Nat :=
  rs.map (fun d => d.chunk_index)

theorem keysOf_nil : keysOf [] = [] := rfl

theorem keysOf_cons (d : ResultDict) (rs : List ResultDict) :
    keysOf (d :: rs) = d.chunk_index :: keysOf rs := rfl

theorem keysOf_append (rs qs : List ResultDict) :
    keysOf (rs ++ qs) = keysOf rs ++ keysOf qs := List.map_append _ _ _

theorem upsertResult_of_not_mem {rs : List ResultDict} {d : ResultDict}
    (h : d.chunk_index ∉ keysOf rs) : upsertResult rs d = rs ++ [d] := by
  induction rs with
  | nil => rfl
  | cons q qs ih =>
    rw [keysOf_cons, List.mem_cons, not_or] at h
    rw [upsertResult, if_neg (Ne.symm h.1), ih h.2, List.cons_append]

theorem keysOf_upsertResult_of_mem {rs : List ResultDict} {d : ResultDict}
    (h : d.chunk_index ∈ keysOf rs) :
    keysOf (upsertResult rs d) = keysOf rs := by
  induction rs with
  | nil => exact absurd h (List.not_mem_nil _)
  | cons q qs ih =>
    by_cases hq : q.chunk_index = d.chunk_index
    · rw [upsertResult, if_pos hq, keysOf_cons, keysOf_cons, hq]
    · rw [keysOf_cons, List.mem_cons] at h
      rcases h with h | h
      · exact absurd h.symm hq
      · rw [upsertResult, if_neg hq, keysOf_cons, keysOf_cons, ih h]

theorem mem_keysOf_upsertResult {rs : List ResultDict} {d : ResultDict} {i : Nat} :
    i ∈ keysOf (upsertResult rs d) ↔ i ∈ keysOf rs ∨ i = d.chunk_index := by
  by_cases h : d.chunk_index ∈ keysOf rs
  · rw [keysOf_upsertResult_of_mem h]
    constructor
    · exact Or.inl
    · rintro (hi | rfl)
      · exact hi
      · exact h
  · rw [upsertResult_of_not_mem h]
    simp [keysOf]

theorem nodup_keysOf_upsertResult {rs : List ResultDict} {d : ResultDict}
    (h : (keysOf rs).Nodup) : (keysOf (upsertResult rs d)).Nodup := by
  by_cases hm : d.chunk_index ∈ keysOf rs
  · rw [keysOf_upsertResult_of_mem hm]; exact h
  · rw [upsertResult_of_not_mem hm, keysOf_append]
    rw [List.nodup_append]
    refine ⟨h, List.nodup_singleton _, ?_⟩
    intro x hx hx2
    rw [keysOf_cons, keysOf_nil, List.mem_singleton] at hx2
    exact hm (hx2 ▸ hx)

theorem completed_addCompletedChunk {s : ProcessingState} {r : ProcessedChunk}
    {i : Nat} :
    i ∈ (addCompletedChunk s r).completed_chunks ↔
      i ∈ s.completed_chunks ∨ i = r.chunk_index := by
  unfold addCompletedChunk
  by_cases h : r.chunk_index ∈ s.completed_chunks
  · simp only [if_pos h]
    constructor
    · exact Or.inl
    · rintro (hi | rfl)
      · exact hi
      · exact h
  · simp only [if_neg h, mem_pySortNat, List.mem_append, List.mem_singleton]

theorem pairwise_completed_addCompletedChunk {s : ProcessingState}
    {r : ProcessedChunk} (h : s.completed_chunks.Pairwise (· < ·)) :
    (addCompletedChunk s r).completed_chunks.Pairwise (· < ·) := by
  unfold addCompletedChunk
  by_cases hm : r.chunk_index ∈ s.completed_chunks
  · simpa only [if_pos hm] using h
  · simp only [if_neg hm]
    have hnd : (s.completed_chunks ++ [r.chunk_index]).Nodup := by
      rw [List.nodup_append]
      refine ⟨h.nodup, List.nodup_singleton _, ?_⟩
      intro x hx hx2
      rw [List.mem_singleton] at hx2
      exact hm (hx2 ▸ hx)
    have hnd2 : (pySortNat (s.completed_chunks ++ [r.chunk_index])).Nodup :=
      (pySortNat_perm _).nodup_iff.mpr hnd
    have hs : (pySortNat (s.completed_chunks ++ [r.chunk_index])).Pairwise (· ≤ ·) :=
      pySortNat_sorted _
    exact (hs.and hnd2).imp (fun h2 => lt_of_le_of_ne h2.1 h2.2)

/-- The invariant preserved by every state mutation: completed indices are
strictly sorted, cached result keys are duplicate free, and every completed
index has a cached result. -/
def StateInv (s : ProcessingState) : Prop :=
  s.completed_chunks.Pairwise (· < ·) ∧
  (keysOf s.processed_results).Nodup ∧
  ∀ i ∈ s.completed_chunks, i ∈ keysOf s.processed_results

theorem stateInv_addCompletedChunk {s : ProcessingState} {r : ProcessedChunk}
    (h : StateInv s) : StateInv (addCompletedChunk s r) := by
  obtain ⟨h1, h2, h3⟩ := h
  refine ⟨pairwise_completed_addCompletedChunk h1, ?_, ?_⟩
  · exact nodup_keysOf_upsertResult h2
  · intro i hi
    rcases completed_addCompletedChunk.mp hi with hi | rfl
    · exact mem_keysOf_upsertResult.mpr (Or.inl (h3 i hi))
    · exact mem_keysOf_upsertResult.mpr (Or.inr rfl)

theorem stateInv_addFailedChunk {s : ProcessingState} {i : Nat} {m : String}
    (h : StateInv s) : StateInv (addFailedChunk s i m) := h

theorem stateInv_applyOps {s : ProcessingState} (ops : List StateOp)
    (h : StateInv s) : StateInv (applyOps s ops) := by
  induction ops generalizing s with
  | nil => exact h
  | cons op rest ih =>
    cases op with
    | complete r => exact ih (stateInv_addCompletedChunk h)
    | fail i m => exact ih (stateInv_addFailedChunk h)

theorem stateInv_createNewState (fileName videoTitle : String) (totalChunks : Nat)
    (config : List (String × String)) (estimatedCost : Rat) :
    StateInv (createNewState fileName videoTitle totalChunks config estimatedCost) :=
  ⟨List.Pairwise.nil, List.nodup_nil, fun i hi => absurd hi (List.not_mem_nil i)⟩

theorem filter_key_eq_nil {rs : List ResultDict} {i : Nat}
    (h : i ∉ keysOf rs) :
    rs.filter (fun d => decide (d.chunk_index = i)) = [] := by
  rw [List.filter_eq_nil_iff]
  intro d hd hdec
  rw [decide_eq_true_eq] at hdec
  exact h (hdec ▸ List.mem_map_of_mem (fun q => q.chunk_index) hd)

theorem length_filter_key_eq_one {rs : List ResultDict} {i : Nat}
    (hnd : (keysOf rs).Nodup) (hm : i ∈ keysOf rs) :
    (rs.filter (fun d => decide (d.chunk_index = i))).length = 1 := by
  induction rs with
  | nil => exact absurd hm (List.not_mem_nil i)
  | cons d rs ih =>
    rw [keysOf_cons, List.nodup_cons] at hnd
    rw [keysOf_cons, List.mem_cons] at hm
    by_cases hd : d.chunk_index = i
    · rw [List.filter_cons_of_pos (by rw [decide_eq_true_eq]; exact hd),
        filter_key_eq_nil (hd ▸ hnd.1)]
      rfl
    · rw [List.filter_cons_of_neg (by rw [decide_eq_true_eq]; exact hd)]
      rcases hm with hm | hm
      · exact absurd hm.symm hd
      · exact ih hnd.2 hm

theorem length_filter_key_le_one {rs : List ResultDict} {i : Nat}
    (hnd : (keysOf rs).Nodup) :
    (rs.filter (fun d => decide (d.chunk_index = i))).length ≤ 1 := by
  by_cases hm : i ∈ keysOf rs
  · exact le_of_eq (length_filter_key_eq_one hnd hm)
  · rw [filter_key_eq_nil hm]
    exact Nat.zero_le 1

/-! ## C10: ordering invariant -/

/-- C10: starting from a freshly created state, after any sequence of
add_completed_chunk and add_failed_chunk operations, completed_chunks is
sorted in strictly increasing order with no duplicates, and
processed_results holds at most one entry per chunk_index. -/
theorem C10_ordering_invariant :
    ∀ (name title : String) (total : Nat) (config : List (String × String))
      (est : Rat) (ops : List StateOp) (i : Nat),
      (applyOps (createNewState name title total config est) ops).completed_chunks.Pairwise
          (· < ·) ∧
      (applyOps (createNewState name title total config est) ops).completed_chunks.Nodup ∧
      ((applyOps (createNewState name title total config est) ops).processed_results.filter
          (fun d => decide (d.chunk_index = i))).length ≤ 1 := by
  intro name title total config est ops i
  obtain ⟨h1, h2, _⟩ :=
    stateInv_applyOps ops (stateInv_createNewState name title total config est)
  exact ⟨h1, h1.nodup, length_filter_key_le_one h2⟩

/-! ## C2: cost bookkeeping -/

/-- Cost list of a result cache. -/
def costsOf (rs : List ResultDict) : List Rat :=
  rs.map (fun d => d.cost)

theorem applyOps_complete_cost (rs : List ProcessedChunk) :
    ∀ s : ProcessingState,
      (applyOps s (rs.map StateOp.complete)).actual_cost =
        s.actual_cost + (rs.map (fun r => r.cost)).sum := by
  induction rs with
  | nil => intro s; simp [applyOps]
  | cons r rest ih =>
    intro s
    have : (addCompletedChunk s r).actual_cost = s.actual_cost + r.cost := rfl
    simp only [List.map_cons, applyOps, ih, this, List.sum_cons]
    ring

theorem cost_matches_results (rs : List ProcessedChunk) :
    ∀ s : ProcessingState,
      (rs.map (fun r => r.chunk_index)).Nodup →
      (∀ r ∈ rs, r.chunk_index ∉ keysOf s.processed_results) →
      s.actual_cost = (costsOf s.processed_results).sum →
      (applyOps s (rs.map StateOp.complete)).actual_cost =
        (costsOf (applyOps s (rs.map StateOp.complete)).processed_results).sum := by
  induction rs with
  | nil => intro s _ _ hbase; exact hbase
  | cons r rest ih =>
    intro s hnd hdisj hbase
    rw [List.map_cons, List.nodup_cons] at hnd
    have hrkey : r.chunk_index ∉ keysOf s.processed_results :=
      hdisj r (List.mem_cons_self r rest)
    have hupsert : (addCompletedChunk s r).processed_results =
        s.processed_results ++ [resultDictOf r] := by
      unfold addCompletedChunk
      exact upsertResult_of_not_mem hrkey
    refine ih (addCompletedChunk s r) hnd.2 ?_ ?_
    · intro q hq
      rw [hupsert, keysOf_append, List.mem_append]
      rintro (hk | hk)
      · exact hdisj q (List.mem_cons_of_mem r hq) hk
      · rw [keysOf_cons, keysOf_nil, List.mem_singleton] at hk
        exact hnd.1 (hk ▸ List.mem_map_of_mem (fun x => x.chunk_index) hq)
    · have h1 : (addCompletedChunk s r).actual_cost = s.actual_cost + r.cost := rfl
      rw [h1, hupsert, hbase]
      unfold costsOf
      rw [List.map_append, List.sum_append]
      simp [resultDictOf]

/-- A concrete processed chunk used for the counterexample inputs. -/
def sampleRes : ProcessedChunk :=
  ⟨0, ['o'], ['c'], 100, 150, 1, "claude-3-5-sonnet-20241022", "anthropic"⟩

/-- C2 fails as stated: re-adding a result for an index already present
replaces the cached entry but adds its cost to actual_cost a second time,
so after completing chunk 0 twice with cost 1 the accumulator holds 2 while
the cached results sum to 1. -/
theorem C2_counterexample :
    (applyOps (createNewState "test.srt" "T" 1 [] 0)
        [StateOp.complete sampleRes, StateOp.complete sampleRes]).actual_cost = 2 ∧
    (costsOf (applyOps (createNewState "test.srt" "T" 1 [] 0)
        [StateOp.complete sampleRes, StateOp.complete sampleRes]).processed_results).sum
      = 1 ∧
    (2 : Rat) ≠ 1 := by
  refine ⟨?_, ?_, by norm_num⟩
  · show (0 : Rat) + 1 + 1 = 2
    norm_num
  · show (1 : Rat) + 0 = 1
    norm_num

/-- C2 amended: after every sequence of add_completed_chunk operations on a
fresh state, every completed index has exactly one matching cached result
(re-adds replace, never duplicate), and actual_cost equals the sum of the
costs of all add_completed_chunk calls made; it equals the sum of the
cached result costs provided no index is completed twice (a re-add counts
its cost again while replacing the cached entry). -/
theorem C2_amended :
    ∀ (name title : String) (total : Nat) (config : List (String × String))
      (est : Rat) (rs : List ProcessedChunk),
      (∀ i ∈ (applyOps (createNewState name title total config est)
            (rs.map StateOp.complete)).completed_chunks,
          ((applyOps (createNewState name title total config est)
              (rs.map StateOp.complete)).processed_results.filter
            (fun d => decide (d.chunk_index = i))).length = 1) ∧
      (applyOps (createNewState name title total config est)
          (rs.map StateOp.complete)).actual_cost =
        (rs.map (fun r => r.cost)).sum ∧
      ((rs.map (fun r => r.chunk_index)).Nodup →
        (applyOps (createNewState name title total config est)
            (rs.map StateOp.complete)).actual_cost =
          (costsOf (applyOps (createNewState name title total config est)
              (rs.map StateOp.complete)).processed_results).sum) := by
  intro name title total config est rs
  refine ⟨?_, ?_, ?_⟩
  · obtain ⟨_, h2, h3⟩ :=
      stateInv_applyOps (rs.map StateOp.complete)
        (stateInv_createNewState name title total config est)
    intro i hi
    exact length_filter_key_eq_one h2 (h3 i hi)
  · rw [applyOps_complete_cost]
    have : (createNewState name title total config est).actual_cost = 0 := rfl
    rw [this, zero_add]
  · intro hnd
    refine cost_matches_results rs _ hnd ?_ rfl
    intro r _ hk
    exact absurd hk (List.not_mem_nil _)

/-- Witness for C2 amended at concrete inputs: completing chunks 0 and 1
once each leaves actual_cost equal to the summed cached costs. -/
theorem C2_amended_witness :
    (applyOps (createNewState "w.srt" "W" 2 [] 0)
        ([sampleRes, { sampleRes with chunk_index := 1, cost := 3 }].map
          StateOp.complete)).actual_cost =
      (costsOf (applyOps (createNewState "w.srt" "W" 2 [] 0)
          ([sampleRes, { sampleRes with chunk_index := 1, cost := 3 }].map
            StateOp.complete)).processed_results).sum :=
  (C2_amended "w.srt" "W" 2 [] 0
      [sampleRes, { sampleRes with chunk_index := 1, cost := 3 }]).2.2
    (by decide)

/-! ## C4: failure paths of the runner -/

theorem mem_upsertFailed (l : List (Nat × String)) (i : Nat) (m : String) :
    (i, m) ∈ upsertFailed l i m := by
  induction l with
  | nil => exact List.mem_singleton.mpr rfl
  | cons p rest ih =>
    by_cases hj : p.1 = i
    · rw [show p = (p.1, p.2) from rfl, upsertFailed, if_pos hj]
      exact List.mem_cons_self _ _
    · rw [show p = (p.1, p.2) from rfl, upsertFailed, if_neg hj]
      exact List.mem_cons_of_mem _ ih

/-- A concrete chunk builder for runner scenarios. -/
def simpleChunk (i : Nat) : Chunk := ⟨i, ['x'], "00:00:00".toList, none⟩

/-- The remote call used by the C4 counterexample: a recoverable rate-limit
failure on chunk 0, success on every other chunk. -/
def c4api : Chunk → Except ApiError ProcessedChunk :=
  fun c => if c.index = 0 then .error .rateLimit
           else .ok { sampleRes with chunk_index := c.index }

/-- C4 fails as stated: with no retries happening inside process_chunk
(see the C3 bug), a recoverable rate-limit failure on chunk 0 of 2 is
recorded in failed_chunks and the loop then continues - chunk 1 is still
attempted, the run returns normally and the final status is completed, not
crashed, and the error is not propagated. -/
theorem C4_counterexample :
    (processAllChunks (some (createNewState "c4.srt" "C4" 2 [] 0))
        [simpleChunk 0, simpleChunk 1] c4api false false).trace.calls = [0, 1] ∧
    (processAllChunks (some (createNewState "c4.srt" "C4" 2 [] 0))
        [simpleChunk 0, simpleChunk 1] c4api false false).outcome =
      .ok [{ sampleRes with chunk_index := 1 }] ∧
    (processAllChunks (some (createNewState "c4.srt" "C4" 2 [] 0))
        [simpleChunk 0, simpleChunk 1] c4api false false).state.map
      (fun s => s.status) = some "completed" ∧
    isRecoverableError .rateLimit = true := by
  refine ⟨?_, ?_, ?_, rfl⟩ <;> rfl

/-- C4 amended: when the loop reaches a chunk whose remote call fails, the
failure is recorded in failed_chunks and persisted; if
_is_recoverable_error classifies it non-recoverable the runner then sets
status crashed, persists (twice, once in the loop and once in the outer
handler), propagates the error, leaves completed_chunks untouched and
attempts no later chunk; but if the error is recoverable (rate limit,
connection, internal server - which reach the runner raw because
process_chunk never retries) the runner records the failure, persists and
continues with the remaining chunks. -/
theorem C4_amended (api : Chunk → Except ApiError ProcessedChunk) (c : Chunk)
    (rest : List Chunk) (st : ProcessingState) (results : List ProcessedChunk)
    (e : ApiError)
    (hnot : c.index ∉ st.completed_chunks) (herr : api c = .error e) :
    (isRecoverableError e = false →
      runLoop api false (c :: rest) st results =
        { outcome := .crashed (errMessage e)
          state := { addFailedChunk st c.index (errMessage e) with status := "crashed" }
          trace := ⟨[c.index],
            [(st.completed_chunks.length, st.total_chunks, "processing")],
            [addFailedChunk st c.index (errMessage e),
             { addFailedChunk st c.index (errMessage e) with status := "crashed" },
             { addFailedChunk st c.index (errMessage e) with status := "crashed" }]⟩ } ∧
      (c.index, errMessage e) ∈
        (addFailedChunk st c.index (errMessage e)).failed_chunks ∧
      ({ addFailedChunk st c.index (errMessage e) with
          status := "crashed" } : ProcessingState).completed_chunks =
        st.completed_chunks) ∧
    (isRecoverableError e = true →
      runLoop api false (c :: rest) st results =
        { outcome := (runLoop api false rest
            (addFailedChunk st c.index (errMessage e)) results).outcome
          state := (runLoop api false rest
            (addFailedChunk st c.index (errMessage e)) results).state
          trace := consTrace ⟨[c.index],
              [(st.completed_chunks.length, st.total_chunks, "processing")],
              [addFailedChunk st c.index (errMessage e)]⟩
            (runLoop api false rest
              (addFailedChunk st c.index (errMessage e)) results).trace }) := by
  constructor
  · intro hrec
    refine ⟨?_, mem_upsertFailed _ _ _, rfl⟩
    rw [runLoop, if_neg hnot, if_neg (by exact Bool.false_ne_true),
      processChunkCall_err herr]
    simp only [hrec, Bool.false_eq_true, if_false]
  · intro hrec
    rw [runLoop, if_neg hnot, if_neg (by exact Bool.false_ne_true),
      processChunkCall_err herr]
    simp only [hrec, if_true]

/-- The remote call used by the C4 witness: a fatal authentication failure
on chunk 2, success elsewhere. -/
def c4AuthApi : Chunk → Except ApiError ProcessedChunk :=
  fun c => if c.index = 2 then .error .authentication
           else .ok { sampleRes with chunk_index := c.index }

/-- The resumed state of the C4 witness scenario: 5 units, 0 and 1 done. -/
def c4State : ProcessingState :=
  { createNewState "c4.srt" "C4" 5 [] 0 with
    status := "processing"
    completed_chunks := [0, 1] }

/-- Witness for C4 amended: an authentication error on unit 2 of 5 crashes
the run, records unit 2 in failed_chunks, preserves completed {0, 1} and
never calls the remote service for units 3 and 4. -/
theorem C4_amended_witness :
    runLoop c4AuthApi false [simpleChunk 2, simpleChunk 3, simpleChunk 4]
        c4State [] =
      { outcome := .crashed "authentication error"
        state := { addFailedChunk c4State 2 "authentication error" with
          status := "crashed" }
        trace := ⟨[2], [(2, 5, "processing")],
          [addFailedChunk c4State 2 "authentication error",
           { addFailedChunk c4State 2 "authentication error" with status := "crashed" },
           { addFailedChunk c4State 2 "authentication error" with
              status := "crashed" }]⟩ } ∧
    (2, "authentication error") ∈
      (addFailedChunk c4State 2 "authentication error").failed_chunks ∧
    ({ addFailedChunk c4State 2 "authentication error" with
        status := "crashed" } : ProcessingState).completed_chunks =
      c4State.completed_chunks :=
  (C4_amended c4AuthApi (simpleChunk 2) [simpleChunk 3, simpleChunk 4]
    c4State [] .authentication (by decide) rfl).1 rfl

/-! ## C5: totality of the segmenter -/

theorem pyStrip_eq_nil_iff {l : List Char} :
    pyStrip l = [] ↔ ∀ c ∈ l, isPySpace c = true := by
  unfold pyStrip
  rw [List.reverse_eq_nil_iff, List.dropWhile_eq_nil_iff]
  constructor
  · intro h c hc
    have hc2 : c ∈ List.takeWhile isPySpace l ++ List.dropWhile isPySpace l := by
      rw [List.takeWhile_append_dropWhile]; exact hc
    rcases List.mem_append.mp hc2 with h1 | h1
    · exact List.mem_takeWhile_imp h1
    · exact h c (List.mem_reverse.mpr h1)
  · intro h c hc
    exact h c ((List.dropWhile_sublist _).subset (List.mem_reverse.mp hc))

theorem mem_of_getLast?_eq {α : Type} {l : List α} {a : α}
    (h : l.getLast? = some a) : a ∈ l := by
  obtain ⟨hne, rfl⟩ := List.mem_getLast?_eq_getLast (show a ∈ l.getLast? from h)
  exact List.getLast_mem hne

theorem scanMatchesAux_bounds {tryAt : List Char → Option Nat}
    (htry : ∀ l n, tryAt l = some n → n ≤ l.length) :
    ∀ (l : List Char) (pos skip : Nat) (m : Nat × Nat),
      m ∈ scanMatchesAux tryAt l pos skip →
      pos ≤ m.1 ∧ m.1 ≤ m.2 ∧ m.2 ≤ pos + l.length := by
  intro l
  induction l with
  | nil => intro pos skip m hm; exact absurd hm (List.not_mem_nil m)
  | cons c rest ih =>
    intro pos skip m hm
    match skip with
    | sk + 1 =>
      have hb := ih (pos + 1) sk m hm
      refine ⟨by omega, hb.2.1, ?_⟩
      rw [List.length_cons]
      omega
    | 0 =>
      rw [scanMatchesAux] at hm
      cases heq : tryAt (c :: rest) with
      | some n =>
        rw [heq] at hm
        rcases List.mem_cons.mp hm with rfl | hm2
        · have hle := htry (c :: rest) n heq
          rw [List.length_cons] at hle
          refine ⟨Nat.le_refl pos, ?_, ?_⟩
          · show pos ≤ pos + n
            omega
          · show pos + n ≤ pos + (c :: rest).length
            rw [List.length_cons]
            omega
        · have hb := ih (pos + 1) (max n 1 - 1) m hm2
          refine ⟨by omega, hb.2.1, ?_⟩
          rw [List.length_cons]
          omega
      | none =>
        rw [heq] at hm
        have hb := ih (pos + 1) 0 m hm
        refine ⟨by omega, hb.2.1, ?_⟩
        rw [List.length_cons]
        omega

theorem paraAt_le : ∀ (l : List Char) (n : Nat), paraAt l = some n → n ≤ l.length := by
  intro l n h
  unfold paraAt at h
  split at h
  · cases h
    simp [List.length_cons]
  · exact absurd h (by simp)

theorem sentAt_le : ∀ (l : List Char) (n : Nat), sentAt l = some n → n ≤ l.length := by
  intro l n h
  unfold sentAt at h
  split at h
  · split at h
    · cases h
      simp [List.length_cons]
    · exact absurd h (by simp)
  · exact absurd h (by simp)

theorem tsAt_le : ∀ (l : List Char) (n : Nat), tsAt l = some n → n ≤ l.length := by
  intro l n h
  unfold tsAt at h
  split at h
  case h_1 c rest =>
    split at h
    case h_1 ds heq =>
      split at h
      · cases h
        have hlen := congrArg List.length heq
        rw [List.length_drop, List.length_cons] at hlen
        rw [List.length_cons]
        omega
      · exact absurd h (by simp)
    case h_2 => exact absurd h (by simp)
  case h_2 => exact absurd h (by simp)

theorem findBestSplit_bounds {text : List Char} {start targetEnd : Nat}
    (h1 : start + 101 ≤ targetEnd) (h2 : targetEnd ≤ text.length) :
    start < findBestSplit text start targetEnd ∧
      findBestSplit text start targetEnd ≤ text.length := by
  unfold findBestSplit
  have hss : start + 1 ≤ max start (targetEnd - 100) :=
    le_max_of_le_right (by omega)
  have hsl : max start (targetEnd - 100) ≤ text.length :=
    max_le (by omega) (by omega)
  have hlen : (pySlice text (max start (targetEnd - 100)) (targetEnd + 50)).length ≤
      text.length - max start (targetEnd - 100) := by
    unfold pySlice
    calc ((text.drop (max start (targetEnd - 100))).take
            (targetEnd + 50 - max start (targetEnd - 100))).length
        ≤ (text.drop (max start (targetEnd - 100))).length :=
          (List.length_take _ _).le.trans (min_le_right _ _)
      _ = text.length - max start (targetEnd - 100) := List.length_drop _ _
  split
  case h_1 m heq =>
    have hb := scanMatchesAux_bounds (fun l n h => paraAt_le l n h) _ 0 0 m
      (mem_of_getLast?_eq heq)
    constructor
    · omega
    · omega
  case h_2 =>
    split
    case h_1 m heq =>
      have hb := scanMatchesAux_bounds (fun l n h => sentAt_le l n h) _ 0 0 m
        (mem_of_getLast?_eq heq)
      constructor
      · omega
      · omega
    case h_2 =>
      split
      case h_1 m heq =>
        have hb := scanMatchesAux_bounds (fun l n h => tsAt_le l n h) _ 0 0 m
          (mem_of_getLast?_eq heq)
        constructor
        · omega
        · omega
      case h_2 => exact ⟨by omega, h2⟩

theorem allSpace_split (l : List Char) (k : Nat) :
    (∀ c ∈ l, isPySpace c = true) ↔
      ((∀ c ∈ l.take k, isPySpace c = true) ∧
       ∀ c ∈ l.drop k, isPySpace c = true) := by
  rw [← List.forall_mem_append, List.take_append_drop]

theorem drop_drop_of_le {l : List Char} {cur endPos : Nat} (h : cur ≤ endPos) :
    (l.drop cur).drop (endPos - cur) = l.drop endPos := by
  rw [List.drop_drop]
  congr 1
  omega

theorem chunkLoop_total {ck : SmartChunker} (h101 : 101 ≤ ck.chunk_size)
    (text : List Char) :
    ∀ (fuel cur idx : Nat) (prev : List Char), text.length - cur < fuel →
      ∃ cs, chunkLoop ck text fuel cur idx prev = some cs ∧
        (cs = [] ↔ ∀ c ∈ text.drop cur, isPySpace c = true) := by
  intro fuel
  induction fuel with
  | zero => intro cur idx prev h; omega
  | succ fuel ih =>
    intro cur idx prev h
    by_cases hcur : cur < text.length
    case neg =>
      refine ⟨[], ?_, by simp [List.drop_eq_nil_of_le (le_of_not_lt hcur)]⟩
      rw [chunkLoop, if_neg hcur]
    case pos =>
      rw [chunkLoop, if_pos hcur]
      -- the split point of this iteration
      have hend : ∀ endPos, cur < endPos → endPos ≤ text.length →
          ∃ cs, (if pyStrip (pySlice text cur endPos) = [] then
                   chunkLoop ck text fuel endPos idx prev
                 else
                   match chunkLoop ck text fuel endPos (idx + 1)
                       (pyStrip (pySlice text cur endPos)) with
                   | some rest => some (Chunk.mk idx (pyStrip (pySlice text cur endPos))
                       ((extractFirstTimestamp (pyStrip (pySlice text cur endPos))).getD
                         ("00:00:00".toList))
                       (if prev ≠ [] ∧ 0 < idx
                        then some (getContextBuffer ck prev) else none) :: rest)
                   | none => none) = some cs ∧
            (cs = [] ↔ ∀ c ∈ text.drop cur, isPySpace c = true) := by
        intro endPos hlt hle
        have hiff : (∀ c ∈ text.drop cur, isPySpace c = true) ↔
            ((∀ c ∈ pySlice text cur endPos, isPySpace c = true) ∧
             ∀ c ∈ text.drop endPos, isPySpace c = true) := by
          rw [allSpace_split (text.drop cur) (endPos - cur)]
          unfold pySlice
          rw [drop_drop_of_le (Nat.le_of_lt hlt)]
        by_cases hempty : pyStrip (pySlice text cur endPos) = []
        · obtain ⟨cs, hcs, hcsiff⟩ := ih endPos idx prev (by omega)
          refine ⟨cs, by rw [if_pos hempty]; exact hcs, ?_⟩
          rw [hcsiff, hiff]
          have hslice : ∀ c ∈ pySlice text cur endPos, isPySpace c = true :=
            pyStrip_eq_nil_iff.mp hempty
          exact ⟨fun h2 => ⟨hslice, h2⟩, fun h2 => h2.2⟩
        · obtain ⟨cs, hcs, _⟩ := ih endPos (idx + 1)
            (pyStrip (pySlice text cur endPos)) (by omega)
          rw [if_neg hempty, hcs]
          refine ⟨_, rfl, ?_⟩
          constructor
          · intro hne; exact absurd hne (by simp)
          · intro hall
            exact absurd (pyStrip_eq_nil_iff.mpr (hiff.mp hall).1) hempty
      by_cases hstop : min (cur + ck.chunk_size) text.length < text.length
      · simp only [if_pos hstop]
        obtain ⟨hgt, hle⟩ := @findBestSplit_bounds text cur
          (min (cur + ck.chunk_size) text.length) (by omega) (by omega)
        exact hend _ hgt hle
      · simp only [if_neg hstop]
        have hmin : min (cur + ck.chunk_size) text.length = text.length := by omega
        rw [hmin]
        exact hend text.length hcur (Nat.le_refl _)

/-- C5 fails as stated: a non-empty whitespace-only input yields zero
chunks even though the input is not empty (every slice strips to nothing
and is dropped). -/
theorem C5_counterexample :
    chunkTranscript ⟨2000, 200⟩ "   ".toList = some [] ∧
    "   ".toList ≠ ([] : List Char) := by
  refine ⟨by decide, by decide⟩

/-- C5 amended: whenever chunk_size exceeds the 100-character search window
(in particular for the default 2000), chunk_transcript terminates within
length + 1 loop iterations and produces at least one chunk unless the input
consists solely of whitespace (in particular unless it is empty), in which
case it produces zero chunks; for chunk_size = 0 the loop does not
terminate (on input a, every iteration bound is exhausted), so totality for
every parameter choice fails. -/
theorem C5_amended :
    (∀ (ck : SmartChunker) (text : List Char), 101 ≤ ck.chunk_size →
      ∃ cs, chunkTranscript ck text = some cs ∧
        (cs = [] ↔ ∀ c ∈ text, isPySpace c = true)) ∧
    (∀ fuel : Nat, chunkLoop ⟨0, 0⟩ ['a'] fuel 0 0 [] = none) := by
  constructor
  · intro ck text h101
    obtain ⟨cs, hcs, hiff⟩ := chunkLoop_total h101 text (text.length + 1) 0 0 []
      (by omega)
    exact ⟨cs, hcs, by simpa using hiff⟩
  · intro fuel
    induction fuel with
    | zero => rfl
    | succ fuel ih => exact ih

/-- Witness for C5 amended at concrete inputs: chunk_size 101 on a two
character input terminates with a single non-empty chunk list. -/
theorem C5_amended_witness :
    ∃ cs, chunkTranscript ⟨101, 0⟩ ['a', 'b'] = some cs ∧
      (cs = [] ↔ ∀ c ∈ ['a', 'b'], isPySpace c = true) :=
  C5_amended.1 ⟨101, 0⟩ ['a', 'b'] (by decide)

/-! ## C6: context snippet properties -/

theorem takeWhile_length_le {p : Char → Bool} (l : List Char) :
    (l.takeWhile p).length ≤ l.length := by
  induction l with
  | nil => exact Nat.le_refl 0
  | cons a rest ih =>
    rw [List.takeWhile_cons]
    by_cases hp : p a
    · rw [if_pos hp, List.length_cons, List.length_cons]
      omega
    · rw [if_neg hp]
      simp

theorem dropWhile_eq_drop {p : Char → Bool} (l : List Char) :
    l.dropWhile p = l.drop (l.takeWhile p).length := by
  induction l with
  | nil => rfl
  | cons a rest ih =>
    rw [List.dropWhile_cons, List.takeWhile_cons]
    by_cases hp : p a
    · rw [if_pos hp, if_pos hp, List.length_cons, List.drop_succ_cons, ih]
    · rw [if_neg hp, if_neg hp]
      rfl

theorem takeWhile_getD {p : Char → Bool} :
    ∀ (l : List Char) (k : Nat) (d : Char), k < (l.takeWhile p).length →
      p (l.getD k d) = true := by
  intro l
  induction l with
  | nil => intro k d h; exact absurd h (by simp)
  | cons a rest ih =>
    intro k d h
    rw [List.takeWhile_cons] at h
    by_cases hp : p a
    · rw [if_pos hp, List.length_cons] at h
      match k with
      | 0 => exact hp
      | k + 1 => exact ih k d (by omega)
    · rw [if_neg hp] at h
      exact absurd h (by simp)

theorem dropWhile_head {p : Char → Bool} :
    ∀ {l t : List Char} {a : Char}, l.dropWhile p = a :: t → p a = false := by
  intro l
  induction l with
  | nil => intro t a h; exact absurd h (by simp)
  | cons b rest ih =>
    intro t a h
    rw [List.dropWhile_cons] at h
    by_cases hp : p b
    · rw [if_pos hp] at h
      exact ih h
    · rw [if_neg hp] at h
      cases h
      exact Bool.of_not_eq_true hp

theorem getD_drop (l : List Char) (n i : Nat) (d : Char) :
    (l.drop n).getD i d = l.getD (n + i) d := by
  rw [List.getD_eq_getElem?_getD, List.getD_eq_getElem?_getD, List.getElem?_drop]

/-- The last character, if any, is not whitespace. -/
def noTrailWs (l : List Char) : Prop :=
  ∀ ch, l.getLast? = some ch → isPySpace ch = false

theorem noTrailWs_nil : noTrailWs [] := fun ch h => by cases h

theorem noTrailWs_pyStrip (l : List Char) : noTrailWs (pyStrip l) := by
  intro ch h
  unfold pyStrip at h
  rw [List.getLast?_reverse] at h
  cases heq : (l.dropWhile isPySpace).reverse.dropWhile isPySpace with
  | nil => rw [heq] at h; cases h
  | cons a t =>
    rw [heq] at h
    cases h
    exact dropWhile_head heq

theorem noTrailWs_of_suffix {s l : List Char} (hs : s <:+ l)
    (hl : noTrailWs l) : noTrailWs s := by
  intro ch h
  obtain ⟨u, rfl⟩ := hs
  apply hl
  rw [List.getLast?_append, h]
  rfl

/-- Stripping a suffix of a list with no trailing whitespace only removes
leading whitespace: the result is the dropWhile suffix, hence a suffix. -/
theorem pyStrip_of_suffix {s l : List Char} (hs : s <:+ l)
    (hl : noTrailWs l) :
    pyStrip s = s.dropWhile isPySpace ∧ pyStrip s <:+ l := by
  have hsnt : noTrailWs s := noTrailWs_of_suffix hs hl
  have hd : s.dropWhile isPySpace <:+ s :=
    ⟨s.takeWhile isPySpace, List.takeWhile_append_dropWhile _ _⟩
  have hdnt : noTrailWs (s.dropWhile isPySpace) := noTrailWs_of_suffix hd hsnt
  have hid : (s.dropWhile isPySpace).reverse.dropWhile isPySpace =
      (s.dropWhile isPySpace).reverse := by
    cases heq : (s.dropWhile isPySpace).reverse with
    | nil => rfl
    | cons a t =>
      rw [List.dropWhile_cons]
      have ha : isPySpace a = false := by
        apply hdnt
        have h2 := List.getLast?_reverse (List.dropWhile isPySpace s).reverse
        rw [List.reverse_reverse, heq] at h2
        rw [h2]
        rfl
      rw [ha]
      simp
  have heq : pyStrip s = s.dropWhile isPySpace := by
    unfold pyStrip
    rw [hid, List.reverse_reverse]
  exact ⟨heq, heq ▸ hd.trans hs⟩

theorem pyStrip_length_le (l : List Char) : (pyStrip l).length ≤ l.length := by
  unfold pyStrip
  rw [List.length_reverse]
  calc ((l.dropWhile isPySpace).reverse.dropWhile isPySpace).length
      ≤ (l.dropWhile isPySpace).reverse.length :=
        ((List.dropWhile_sublist _).length_le)
    _ = (l.dropWhile isPySpace).length := List.length_reverse _
    _ ≤ l.length := (List.dropWhile_sublist _).length_le

theorem pyTailSlice_length_le {l : List Char} {k : Nat} (hk : k ≠ 0) :
    (pyTailSlice l k).length ≤ k := by
  unfold pyTailSlice
  rw [if_neg hk, List.length_drop]
  omega

theorem pyTailSlice_suffix (l : List Char) (k : Nat) : pyTailSlice l k <:+ l := by
  unfold pyTailSlice
  by_cases hk : k = 0
  · rw [if_pos hk]
  · rw [if_neg hk]
    exact List.drop_suffix _ _

theorem pyTailSlice_eq_drop {l : List Char} {k : Nat} (hk : k ≠ 0) :
    pyTailSlice l k = l.drop (l.length - k) := by
  unfold pyTailSlice
  rw [if_neg hk]

/-! The shift property and the characterization of searchSentSpace. -/

theorem searchSentSpaceAux_shift :
    ∀ (l : List Char) (pos : Nat),
      searchSentSpaceAux l pos = (searchSentSpaceAux l 0).map (fun e => e + pos)
  | [], _ => rfl
  | [_], _ => rfl
  | a :: b :: rest, pos => by
    rw [searchSentSpaceAux, searchSentSpaceAux]
    by_cases hc : isSentPunct a && isPySpace b
    · rw [if_pos hc, if_pos hc]
      show some (pos + 2 + (rest.takeWhile isPySpace).length) =
        some (0 + 2 + (rest.takeWhile isPySpace).length + pos)
      congr 1
      omega
    · rw [if_neg hc, if_neg hc,
        searchSentSpaceAux_shift (b :: rest) (pos + 1),
        searchSentSpaceAux_shift (b :: rest) 1, Option.map_map]
      congr 1
      funext e
      simp only [Function.comp_apply]
      omega
termination_by l _ => l.length

theorem searchSentSpace_spec :
    ∀ (t : List Char) (e : Nat), searchSentSpace t = some e →
      ∃ i, i + 2 ≤ e ∧ e ≤ t.length ∧
        isSentPunct (t.getD i ' ') = true ∧
        ∀ m, i < m → m < e → isPySpace (t.getD m ' ') = true
  | [], e => by intro h; cases h
  | [_], e => by intro h; cases h
  | a :: b :: rest, e => by
    intro h
    unfold searchSentSpace searchSentSpaceAux at h
    by_cases hc : isSentPunct a && isPySpace b
    · rw [if_pos hc] at h
      cases h
      rw [Bool.and_eq_true] at hc
      refine ⟨0, by omega, ?_, hc.1, ?_⟩
      · rw [List.length_cons, List.length_cons]
        have := @takeWhile_length_le isPySpace rest
        omega
      · intro m h1 h2
        match m with
        | 1 => exact hc.2
        | n + 2 =>
          show isPySpace (rest.getD n ' ') = true
          exact takeWhile_getD rest n ' ' (by omega)
    · rw [if_neg hc] at h
      have hsh := searchSentSpaceAux_shift (b :: rest) 1
      rw [hsh] at h
      cases heq : searchSentSpaceAux (b :: rest) 0 with
      | none => rw [heq] at h; cases h
      | some e0 =>
        rw [heq] at h
        rw [show (some e0).map (fun x => x + 1) = some (e0 + 1) from rfl] at h
        cases h
        obtain ⟨i0, hi1, hi2, hi3, hi4⟩ :=
          searchSentSpace_spec (b :: rest) e0 heq
        refine ⟨i0 + 1, by omega, ?_, hi3, ?_⟩
        · rw [List.length_cons]
          omega
        · intro m h1 h2
          match m with
          | n + 1 =>
            show isPySpace ((b :: rest).getD n ' ') = true
            exact hi4 n (by omega) (by omega)
termination_by t _ => t.length

theorem getContextBuffer_suffix (ck : SmartChunker) {prev : List Char}
    (hnt : noTrailWs prev) : getContextBuffer ck prev <:+ prev := by
  unfold getContextBuffer
  by_cases h1 : prev.length ≤ ck.overlap
  · rw [if_pos h1]
  · rw [if_neg h1]
    cases heq : searchSentSpace (pyTailSlice prev (ck.overlap + 50)) with
    | some e =>
      have hsuf : (pyTailSlice prev (ck.overlap + 50)).drop e <:+ prev :=
        (List.drop_suffix _ _).trans (pyTailSlice_suffix _ _)
      exact (pyStrip_of_suffix hsuf hnt).2
    | none =>
      exact (pyStrip_of_suffix (pyTailSlice_suffix prev ck.overlap) hnt).2

theorem getContextBuffer_length (ck : SmartChunker) {prev : List Char}
    (hov : 1 ≤ ck.overlap) :
    (getContextBuffer ck prev).length ≤ ck.overlap + 50 := by
  unfold getContextBuffer
  by_cases h1 : prev.length ≤ ck.overlap
  · rw [if_pos h1]
    omega
  · rw [if_neg h1]
    cases heq : searchSentSpace (pyTailSlice prev (ck.overlap + 50)) with
    | some e =>
      show (pyStrip ((pyTailSlice prev (ck.overlap + 50)).drop e)).length ≤
        ck.overlap + 50
      calc (pyStrip ((pyTailSlice prev (ck.overlap + 50)).drop e)).length
          ≤ ((pyTailSlice prev (ck.overlap + 50)).drop e).length :=
            pyStrip_length_le _
        _ ≤ (pyTailSlice prev (ck.overlap + 50)).length := by
            rw [List.length_drop]; omega
        _ ≤ ck.overlap + 50 := pyTailSlice_length_le (by omega)
    | none =>
      show (pyStrip (pyTailSlice prev ck.overlap)).length ≤ ck.overlap + 50
      calc (pyStrip (pyTailSlice prev ck.overlap)).length
          ≤ (pyTailSlice prev ck.overlap).length := pyStrip_length_le _
        _ ≤ ck.overlap := pyTailSlice_length_le (by omega)
        _ ≤ ck.overlap + 50 := by omega

theorem getContextBuffer_sentence (ck : SmartChunker) {prev : List Char} {e : Nat}
    (hnt : noTrailWs prev) (hlen : ck.overlap < prev.length)
    (heq : searchSentSpace (pyTailSlice prev (ck.overlap + 50)) = some e) :
    ∃ p q, q + 1 < p ∧ p ≤ prev.length ∧
      getContextBuffer ck prev = prev.drop p ∧
      isSentPunct (prev.getD q ' ') = true ∧
      ∀ m, q < m → m < p → isPySpace (prev.getD m ' ') = true := by
  have hn0 : ck.overlap + 50 ≠ 0 := by omega
  have htd : pyTailSlice prev (ck.overlap + 50) =
      prev.drop (prev.length - (ck.overlap + 50)) := pyTailSlice_eq_drop hn0
  set t := pyTailSlice prev (ck.overlap + 50) with hT
  set qoff := prev.length - (ck.overlap + 50) with hQ
  have htlen : t.length = prev.length - qoff := by rw [htd, List.length_drop]
  obtain ⟨i, hi1, hi2, hi3, hi4⟩ := searchSentSpace_spec t e heq
  have hsuf : t.drop e <:+ prev :=
    (List.drop_suffix _ _).trans (pyTailSlice_suffix _ _)
  obtain ⟨hstrip, _⟩ := pyStrip_of_suffix hsuf hnt
  set w := ((t.drop e).takeWhile isPySpace).length with hW
  have hwle : w ≤ t.length - e := by
    rw [hW]
    have h2 := @takeWhile_length_le isPySpace (t.drop e)
    rw [List.length_drop] at h2
    exact h2
  have hsnip : getContextBuffer ck prev = prev.drop (qoff + e + w) := by
    unfold getContextBuffer
    rw [if_neg (by omega), ← hT, heq]
    show pyStrip (t.drop e) = prev.drop (qoff + e + w)
    rw [hstrip, dropWhile_eq_drop, ← hW, htd, List.drop_drop, List.drop_drop]
    congr 1
    omega
  refine ⟨qoff + e + w, qoff + i, by omega, by omega, hsnip, ?_, ?_⟩
  · rw [htd, getD_drop] at hi3
    exact hi3
  · intro m hm1 hm2
    by_cases hcase : m < qoff + e
    · have h3 := hi4 (m - qoff) (by omega) (by omega)
      rw [htd, getD_drop] at h3
      have harg : qoff + (m - qoff) = m := by omega
      rw [harg] at h3
      exact h3
    · have h3 := takeWhile_getD (t.drop e) (m - qoff - e) ' ' (by rw [← hW]; omega)
      rw [getD_drop, htd, getD_drop] at h3
      have harg : qoff + (e + (m - qoff - e)) = m := by omega
      rw [harg] at h3
      exact h3

theorem chunkLoop_chain {ck : SmartChunker} {text : List Char} :
    ∀ (fuel cur idx : Nat) (prev : List Char) (cs : List Chunk),
      chunkLoop ck text fuel cur idx prev = some cs →
      (∀ c ∈ cs, idx ≤ c.index ∧ (c.index = 0 → c.context_buffer = none) ∧
         c.text ≠ [] ∧ noTrailWs c.text) ∧
      (∀ h0 : 0 < cs.length, (cs.get ⟨0, h0⟩).index = idx ∧
         (0 < idx → prev ≠ [] → (cs.get ⟨0, h0⟩).context_buffer =
           some (getContextBuffer ck prev))) ∧
      (∀ (j : Nat) (hj1 : j + 1 < cs.length),
         (cs.get ⟨j + 1, hj1⟩).context_buffer =
           some (getContextBuffer ck (cs.get ⟨j, by omega⟩).text)) := by
  intro fuel
  induction fuel with
  | zero => intro cur idx prev cs h; cases h
  | succ fuel ih =>
    intro cur idx prev cs h
    rw [chunkLoop] at h
    by_cases hcur : cur < text.length
    case neg =>
      rw [if_neg hcur] at h
      cases h
      exact ⟨fun c hc => absurd hc (List.not_mem_nil c),
        fun h0 => absurd h0 (by simp), fun j hj => absurd hj (by simp)⟩
    case pos =>
      rw [if_pos hcur] at h
      simp only [ne_eq] at h
      revert h
      generalize (if min (cur + ck.chunk_size) text.length < text.length
          then findBestSplit text cur (min (cur + ck.chunk_size) text.length)
          else min (cur + ck.chunk_size) text.length) = E
      intro h
      split at h
      · exact ih _ _ _ _ h
      · rename_i hT
        split at h
        · rename_i rest heq
          cases h
          obtain ⟨IH1, IH2, IH3⟩ := ih _ _ _ _ heq
          refine ⟨?_, ?_, ?_⟩
          · intro c hc
            rcases List.mem_cons.mp hc with rfl | hc2
            · refine ⟨Nat.le_refl idx, ?_, hT, noTrailWs_pyStrip _⟩
              intro hidx0
              have hidx : idx = 0 := hidx0
              show (if ¬prev = [] ∧ 0 < idx
                    then some (getContextBuffer ck prev) else none) = none
              rw [if_neg]
              rintro ⟨-, hpos⟩
              omega
            · obtain ⟨ha, hb, hc3, hd⟩ := IH1 c hc2
              exact ⟨by omega, hb, hc3, hd⟩
          · intro h0
            refine ⟨rfl, ?_⟩
            intro hpos hprev
            show (if ¬prev = [] ∧ 0 < idx
                  then some (getContextBuffer ck prev) else none) =
              some (getContextBuffer ck prev)
            rw [if_pos ⟨hprev, hpos⟩]
          · intro j hj1
            match j with
            | 0 =>
              have h0r : 0 < rest.length := by
                rw [List.length_cons] at hj1
                omega
              have hhead := IH2 h0r
              exact (hhead.2 (by omega) hT)
            | j + 1 =>
              have hj2 : j + 1 + 1 ≤ rest.length := by
                rw [List.length_cons] at hj1
                omega
              exact IH3 j (by omega)
        · cases h

/-- C6 fails as stated: with overlap 0, the Python slice
previous_text[-overlap:] is the whole previous text, so on 120 identical
characters with chunk_size 60 the second chunk carries a context snippet of
60 characters, exceeding overlap + 50 = 50. -/
theorem C6_counterexample :
    ((chunkTranscript ⟨60, 0⟩ (List.replicate 120 'a')).getD []).map
        (fun c => c.context_buffer.map List.length) = [none, some 60] ∧
    ¬ (60 ≤ 0 + 50) :=
  ⟨by decide, by decide⟩

/-- C6 amended: for every chunk sequence produced by chunk_transcript,
chunk 0 carries no context snippet; every chunk k+1 carries the snippet
computed from chunk k primary text, which is a suffix of that text; and
whenever the trim is applied (the previous text is longer than overlap)
and a sentence-ending boundary exists in the trim window, the snippet
starts right after sentence-ending punctuation plus whitespace, so it does
not begin mid-sentence.  The length bound of overlap + 50 holds whenever
overlap is at least 1; with overlap 0 it fails (see the counterexample),
because the fallback slice previous_text[-0:] is the whole previous
text. -/
theorem C6_amended (ck : SmartChunker) (text : List Char) (cs : List Chunk)
    (hres : chunkTranscript ck text = some cs) :
    (∀ c ∈ cs, c.index = 0 → c.context_buffer = none) ∧
    (∀ (j : Nat) (hj1 : j + 1 < cs.length) (hj : j < cs.length),
      (cs.get ⟨j + 1, hj1⟩).context_buffer =
        some (getContextBuffer ck (cs.get ⟨j, hj⟩).text) ∧
      getContextBuffer ck (cs.get ⟨j, hj⟩).text <:+ (cs.get ⟨j, hj⟩).text ∧
      (1 ≤ ck.overlap →
        (getContextBuffer ck (cs.get ⟨j, hj⟩).text).length ≤ ck.overlap + 50) ∧
      ∀ e, ck.overlap < (cs.get ⟨j, hj⟩).text.length →
        searchSentSpace (pyTailSlice (cs.get ⟨j, hj⟩).text (ck.overlap + 50)) =
          some e →
        ∃ p q, q + 1 < p ∧ p ≤ (cs.get ⟨j, hj⟩).text.length ∧
          getContextBuffer ck (cs.get ⟨j, hj⟩).text =
            (cs.get ⟨j, hj⟩).text.drop p ∧
          isSentPunct ((cs.get ⟨j, hj⟩).text.getD q ' ') = true ∧
          ∀ m, q < m → m < p →
            isPySpace ((cs.get ⟨j, hj⟩).text.getD m ' ') = true) := by
  obtain ⟨H1, H2, H3⟩ := chunkLoop_chain (text.length + 1) 0 0 [] cs hres
  refine ⟨fun c hc => (H1 c hc).2.1, ?_⟩
  intro j hj1 hj
  have hmem : cs.get ⟨j, hj⟩ ∈ cs := cs.get_mem _ _
  have hnt : noTrailWs (cs.get ⟨j, hj⟩).text := (H1 _ hmem).2.2.2
  refine ⟨H3 j hj1, getContextBuffer_suffix ck hnt,
    fun hov => getContextBuffer_length ck hov, ?_⟩
  intro e hlen heq
  exact getContextBuffer_sentence ck hnt hlen heq

/-- The concrete chunk sequence used by the C6 witness. -/
def c6cs : List Chunk :=
  [⟨0, List.replicate 101 'a', "00:00:00".toList, none⟩,
   ⟨1, List.replicate 19 'a', "00:00:00".toList, some (List.replicate 10 'a')⟩]

set_option maxRecDepth 8000 in
/-- Witness for C6 amended at a concrete input: with chunk_size 101 and
overlap 10 on 120 identical characters, chunk 1 carries the snippet of
chunk 0, a suffix of its text of length at most 60. -/
theorem C6_amended_witness :
    (c6cs.get ⟨1, by decide⟩).context_buffer =
      some (getContextBuffer ⟨101, 10⟩ (c6cs.get ⟨0, by decide⟩).text) ∧
    getContextBuffer ⟨101, 10⟩ (c6cs.get ⟨0, by decide⟩).text <:+
      (c6cs.get ⟨0, by decide⟩).text ∧
    (getContextBuffer ⟨101, 10⟩ (c6cs.get ⟨0, by decide⟩).text).length ≤ 10 + 50 :=
  have h := (C6_amended ⟨101, 10⟩ (List.replicate 120 'a') c6cs
    (by decide)).2 0 (by decide) (by decide)
  ⟨h.1, h.2.1, h.2.2.1 (by decide)⟩

/-! ## C1: idempotent resume -/

instance : IsTotal ProcessedChunk keyLe :=
  ⟨fun a b => Nat.le_total a.chunk_index b.chunk_index⟩

instance : IsTrans ProcessedChunk keyLe :=
  ⟨fun _ _ _ h1 h2 => Nat.le_trans h1 h2⟩

/-- Strict order on results by chunk index. -/
def keyLt (a b : ProcessedChunk) : Prop := a.chunk_index < b.chunk_index

instance : IsAntisymm ProcessedChunk keyLt :=
  ⟨fun _ _ h1 h2 => absurd h2 (Nat.lt_asymm h1)⟩

theorem sortByIndex_perm (l : List ProcessedChunk) :
    List.Perm (sortByIndex l) l :=
  List.perm_insertionSort _ l

theorem sortByIndex_sorted (l : List ProcessedChunk) :
    List.Sorted keyLe (sortByIndex l) :=
  List.sorted_insertionSort keyLe l

/-- Two sorted result lists that are permutations of each other and have
duplicate-free chunk indices are equal. -/
theorem sorted_nodup_eq {l1 l2 : List ProcessedChunk}
    (hperm : List.Perm l1 l2) (h1 : List.Sorted keyLe l1)
    (h2 : List.Sorted keyLe l2) (hnd : (keysOf l2).Nodup) : l1 = l2 := by
  have hnd1 : (keysOf l1).Nodup := by
    unfold keysOf
    exact ((hperm.map _).nodup_iff).mpr hnd
  have hlift : ∀ {l : List ProcessedChunk}, List.Sorted keyLe l →
      (keysOf l).Nodup → l.Pairwise keyLt := by
    intro l hs hn
    have hs2 : l.Pairwise keyLe := hs
    have hne : l.Pairwise (fun a b => a.chunk_index ≠ b.chunk_index) := by
      unfold keysOf at hn
      exact (List.pairwise_map).mp hn
    exact (hs2.and hne).imp (fun h => Nat.lt_of_le_of_ne h.1 h.2)
  exact List.eq_of_perm_of_sorted hperm (hlift h1 hnd1) (hlift h2 hnd)

/-- Characterization of a run of the loop in which every remote call
succeeds with a deterministic result: it returns normally; the final result
list is a sorted permutationally-exact merge of the incoming results and
the freshly processed chunks; the chunks remotely called are exactly those
whose index is not already completed; and one skipped progress signal is
emitted for each already-completed chunk. -/
theorem runLoop_success {f : Chunk → ProcessedChunk}
    (hkey : ∀ c, (f c).chunk_index = c.index) :
    ∀ (rest : List Chunk) (st : ProcessingState) (acc : List ProcessedChunk),
      (rest.map Chunk.index).Nodup →
      List.Sorted keyLe acc →
      ∃ res,
        (runLoop (fun c => .ok (f c)) false rest st acc).outcome = .ok res ∧
        List.Perm res (acc ++ (rest.filter
          (fun c => !decide (c.index ∈ st.completed_chunks))).map f) ∧
        List.Sorted keyLe res ∧
        (runLoop (fun c => .ok (f c)) false rest st acc).trace.calls =
          (rest.filter
            (fun c => !decide (c.index ∈ st.completed_chunks))).map Chunk.index ∧
        ((runLoop (fun c => .ok (f c)) false rest st acc).trace.progress.filter
            (fun ev => ev.2.2 == "skipped")).length =
          (rest.filter
            (fun c => decide (c.index ∈ st.completed_chunks))).length := by
  intro rest
  induction rest with
  | nil =>
    intro st acc hnd hsort
    exact ⟨acc, rfl, by simp, hsort, rfl, rfl⟩
  | cons c rest ih =>
    intro st acc hnd hsort
    rw [List.map_cons, List.nodup_cons] at hnd
    by_cases hmem : c.index ∈ st.completed_chunks
    · -- skipped chunk
      have hstep : runLoop (fun c => .ok (f c)) false (c :: rest) st acc =
          ⟨(runLoop (fun c => .ok (f c)) false rest st acc).outcome,
           (runLoop (fun c => .ok (f c)) false rest st acc).state,
           consTrace ⟨[], [(st.completed_chunks.length, st.total_chunks,
             "skipped")], []⟩
             (runLoop (fun c => .ok (f c)) false rest st acc).trace⟩ := by
        rw [runLoop, if_pos hmem]
      obtain ⟨res, ho, hp, hs, hc2, hsk⟩ := ih st acc hnd.2 hsort
      have hfo : ((c :: rest).filter
          (fun c => !decide (c.index ∈ st.completed_chunks))) =
          rest.filter (fun c => !decide (c.index ∈ st.completed_chunks)) :=
        List.filter_cons_of_neg (by simp [hmem])
      have hfi : ((c :: rest).filter
          (fun c => decide (c.index ∈ st.completed_chunks))) =
          c :: rest.filter (fun c => decide (c.index ∈ st.completed_chunks)) :=
        List.filter_cons_of_pos (by simp [hmem])
      refine ⟨res, ?_, ?_, hs, ?_, ?_⟩
      · rw [hstep]
        exact ho
      · rw [hfo]
        exact hp
      · rw [hstep, hfo]
        show [] ++ (runLoop (fun c => .ok (f c)) false rest st acc).trace.calls = _
        rw [List.nil_append]
        exact hc2
      · rw [hstep, hfi]
        show (((st.completed_chunks.length, st.total_chunks, "skipped") ::
          (runLoop (fun c => .ok (f c)) false rest st acc).trace.progress).filter
            (fun ev => ev.2.2 == "skipped")).length = _
        rw [List.filter_cons_of_pos (by rfl), List.length_cons, hsk,
          List.length_cons]
    · -- processed chunk
      have hcall : processChunkCall (fun c => .ok (f c)) c = .success (f c) 1 :=
        processChunkCall_ok rfl
      have hstep : runLoop (fun c => .ok (f c)) false (c :: rest) st acc =
          ⟨(runLoop (fun c => .ok (f c)) false rest (addCompletedChunk st (f c))
              (sortByIndex (acc ++ [f c]))).outcome,
           (runLoop (fun c => .ok (f c)) false rest (addCompletedChunk st (f c))
              (sortByIndex (acc ++ [f c]))).state,
           consTrace ⟨[c.index],
             [(st.completed_chunks.length, st.total_chunks, "processing"),
              ((addCompletedChunk st (f c)).completed_chunks.length,
               (addCompletedChunk st (f c)).total_chunks, "completed")],
             [addCompletedChunk st (f c)]⟩
             (runLoop (fun c => .ok (f c)) false rest (addCompletedChunk st (f c))
               (sortByIndex (acc ++ [f c]))).trace⟩ := by
        rw [runLoop, if_neg hmem, hcall]
        rfl
      obtain ⟨res, ho, hp, hs, hc2, hsk⟩ := ih (addCompletedChunk st (f c))
        (sortByIndex (acc ++ [f c])) hnd.2 (sortByIndex_sorted _)
      have hfiltereq : rest.filter
          (fun q => !decide (q.index ∈ (addCompletedChunk st (f c)).completed_chunks)) =
          rest.filter (fun q => !decide (q.index ∈ st.completed_chunks)) := by
        apply List.filter_congr
        intro q hq
        have hne : q.index ≠ c.index := by
          intro heq2
          exact hnd.1 (heq2 ▸ List.mem_map_of_mem Chunk.index hq)
        have : (q.index ∈ (addCompletedChunk st (f c)).completed_chunks) ↔
            (q.index ∈ st.completed_chunks) := by
          rw [completed_addCompletedChunk, hkey c]
          constructor
          · rintro (h2 | h2)
            · exact h2
            · exact absurd h2 hne
          · exact Or.inl
        simp [this]
      have hfilterin : rest.filter
          (fun q => decide (q.index ∈ (addCompletedChunk st (f c)).completed_chunks)) =
          rest.filter (fun q => decide (q.index ∈ st.completed_chunks)) := by
        apply List.filter_congr
        intro q hq
        have hne : q.index ≠ c.index := by
          intro heq2
          exact hnd.1 (heq2 ▸ List.mem_map_of_mem Chunk.index hq)
        have : (q.index ∈ (addCompletedChunk st (f c)).completed_chunks) ↔
            (q.index ∈ st.completed_chunks) := by
          rw [completed_addCompletedChunk, hkey c]
          constructor
          · rintro (h2 | h2)
            · exact h2
            · exact absurd h2 hne
          · exact Or.inl
        simp [this]
      have hfo : ((c :: rest).filter
          (fun q => !decide (q.index ∈ st.completed_chunks))) =
          c :: rest.filter (fun q => !decide (q.index ∈ st.completed_chunks)) :=
        List.filter_cons_of_pos (by simp [hmem])
      have hfi : ((c :: rest).filter
          (fun q => decide (q.index ∈ st.completed_chunks))) =
          rest.filter (fun q => decide (q.index ∈ st.completed_chunks)) :=
        List.filter_cons_of_neg (by simp [hmem])
      refine ⟨res, ?_, ?_, hs, ?_, ?_⟩
      · rw [hstep]
        exact ho
      · rw [hfo]
        have h1 : List.Perm res (sortByIndex (acc ++ [f c]) ++
            (rest.filter (fun q => !decide (q.index ∈ st.completed_chunks))).map f) := by
          rw [← hfiltereq]
          exact hp
        have h2 : List.Perm (sortByIndex (acc ++ [f c]) ++
            (rest.filter (fun q => !decide (q.index ∈ st.completed_chunks))).map f)
            ((acc ++ [f c]) ++
             (rest.filter (fun q => !decide (q.index ∈ st.completed_chunks))).map f) :=
          (sortByIndex_perm _).append_right _
        refine h1.trans (h2.trans ?_)
        rw [List.map_cons, List.append_assoc, List.singleton_append]
      · rw [hstep, hfo]
        show [c.index] ++ _ = _
        rw [hc2, hfiltereq, List.map_cons]
        rfl
      · rw [hstep, hfi]
        show (((st.completed_chunks.length, st.total_chunks, "processing") ::
            ((addCompletedChunk st (f c)).completed_chunks.length,
              (addCompletedChunk st (f c)).total_chunks, "completed") ::
            (runLoop (fun c => .ok (f c)) false rest (addCompletedChunk st (f c))
              (sortByIndex (acc ++ [f c]))).trace.progress).filter
              (fun ev => ev.2.2 == "skipped")).length = _
        have hred : ∀ (a b c d : Nat) (l : List (Nat × Nat × String)),
            ((a, b, "processing") :: (c, d, "completed") :: l).filter
              (fun ev => ev.2.2 == "skipped") =
            l.filter (fun ev => ev.2.2 == "skipped") := fun a b c d l => rfl
        rw [hred, hsk, hfilterin]

theorem indices_nodup {chunks : List Chunk}
    (hidx : ∀ (k : Nat) (hk : k < chunks.length), (chunks.get ⟨k, hk⟩).index = k) :
    (chunks.map Chunk.index).Nodup := by
  have heq : chunks.map Chunk.index = List.range chunks.length := by
    apply List.ext_get
    · rw [List.length_map, List.length_range]
    · intro n h1 h2
      rw [List.get_map, List.get_range]
      exact hidx n _
  rw [heq]
  exact List.nodup_range _

/-- The cached completed indices, mapped back to their chunks, are a
permutation of the chunks whose index is completed. -/
theorem completed_map_perm_filter {chunks : List Chunk} {cset : List Nat}
    (hidx : ∀ (k : Nat) (hk : k < chunks.length), (chunks.get ⟨k, hk⟩).index = k)
    (hnd : cset.Nodup) (hsub : ∀ i ∈ cset, i < chunks.length) :
    List.Perm (cset.map (fun i => chunks.getD i defaultChunk))
      (chunks.filter (fun c => decide (c.index ∈ cset))) := by
  have hnthidx : ∀ i ∈ cset, (chunks.getD i defaultChunk).index = i := by
    intro i hi
    rw [List.getD_eq_getElem _ _ (hsub i hi)]
    exact hidx i (hsub i hi)
  have hnd1 : (cset.map (fun i => chunks.getD i defaultChunk)).Nodup := by
    refine List.Nodup.map_on ?_ hnd
    intro x hx y hy hxy
    rw [← hnthidx x hx, ← hnthidx y hy, hxy]
  have hnd2 : (chunks.filter (fun c => decide (c.index ∈ cset))).Nodup :=
    (List.Nodup.of_map Chunk.index (indices_nodup hidx)).filter _
  refine (List.perm_ext_iff_of_nodup hnd1 hnd2).mpr ?_
  intro x
  constructor
  · intro hx
    obtain ⟨i, hi, rfl⟩ := List.mem_map.mp hx
    refine List.mem_filter.mpr ⟨?_, ?_⟩
    · rw [List.getD_eq_getElem _ _ (hsub i hi)]
      exact List.get_mem _ _ _
    · rw [hnthidx i hi]
      exact decide_eq_true hi
  · intro hx
    obtain ⟨hmemc, hdec⟩ := List.mem_filter.mp hx
    obtain ⟨⟨k, hk⟩, rfl⟩ := List.mem_iff_get.mp hmemc
    have hkin : k ∈ cset := by
      have h2 := of_decide_eq_true hdec
      rw [hidx k hk] at h2
      exact h2
    refine List.mem_map.mpr ⟨k, hkin, ?_⟩
    rw [List.getD_eq_getElem _ _ hk]
    rfl

theorem sorted_map_f {chunks : List Chunk} {f : Chunk → ProcessedChunk}
    (hkey : ∀ c, (f c).chunk_index = c.index)
    (hidx : ∀ (k : Nat) (hk : k < chunks.length), (chunks.get ⟨k, hk⟩).index = k) :
    List.Sorted keyLe (chunks.map f) ∧ (keysOf (chunks.map f)).Nodup := by
  constructor
  · show (chunks.map f).Pairwise keyLe
    rw [List.pairwise_iff_get]
    intro i j hij
    rw [List.get_map, List.get_map]
    show (f (chunks.get _)).chunk_index ≤ (f (chunks.get _)).chunk_index
    rw [hkey, hkey, hidx, hidx]
    exact Nat.le_of_lt hij
  · have heq : keysOf (chunks.map f) = chunks.map Chunk.index := by
      unfold keysOf
      rw [List.map_map]
      apply List.map_congr_left
      intro c _
      exact hkey c
    rw [heq]
    exact indices_nodup hidx

/-- C1: with every remote call a deterministic success, resuming from a
state whose completed indices form a subset of the chunk indices with their
cached results persisted processes only the chunks whose index is not in
completed_chunks, emits one skipped progress signal per already-completed
chunk, and returns a result list equal by content and index order to the
list obtained by processing the whole sequence from scratch on a fresh
state - both runs return exactly the in-order image of the chunk list under
the remote function. -/
theorem C1_idempotent_resume (chunks : List Chunk) (f : Chunk → ProcessedChunk)
    (st : ProcessingState) (name title : String)
    (config : List (String × String)) (est : Rat)
    (hkey : ∀ c, (f c).chunk_index = c.index)
    (hidx : ∀ (k : Nat) (hk : k < chunks.length), (chunks.get ⟨k, hk⟩).index = k)
    (hsub : ∀ i ∈ st.completed_chunks, i < chunks.length)
    (hsorted : st.completed_chunks.Pairwise (· < ·))
    (hcache : st.processed_results = st.completed_chunks.map
      (fun i => resultDictOf (f (chunks.getD i defaultChunk))))
    (_hresume : isResumable st = true) :
    (processAllChunks (some st) chunks (fun c => .ok (f c)) false true).outcome =
      .ok (chunks.map f) ∧
    (processAllChunks (some (createNewState name title chunks.length config est))
        chunks (fun c => .ok (f c)) false false).outcome = .ok (chunks.map f) ∧
    (processAllChunks (some st) chunks (fun c => .ok (f c)) false
        true).trace.calls =
      (chunks.filter
        (fun c => !decide (c.index ∈ st.completed_chunks))).map Chunk.index ∧
    ((processAllChunks (some st) chunks (fun c => .ok (f c)) false
        true).trace.progress.filter (fun ev => ev.2.2 == "skipped")).length =
      (chunks.filter (fun c => decide (c.index ∈ st.completed_chunks))).length := by
  obtain ⟨hmsorted, hmnd⟩ := sorted_map_f hkey hidx
  -- the resumed run
  obtain ⟨res, ho, hp, hs, hc2, hsk⟩ := runLoop_success hkey chunks
    { st with status := "processing" }
    (sortByIndex (st.processed_results.map rebuildResult))
    (indices_nodup hidx) (sortByIndex_sorted _)
  have hproj : ({ st with status := "processing" } :
      ProcessingState).completed_chunks = st.completed_chunks := rfl
  rw [hproj] at hp hc2 hsk
  have hacc : List.Perm (sortByIndex (st.processed_results.map rebuildResult))
      (st.completed_chunks.map (fun i => f (chunks.getD i defaultChunk))) := by
    have h0 : List.Perm (sortByIndex (st.processed_results.map rebuildResult))
        ((st.completed_chunks.map
          (fun i => resultDictOf (f (chunks.getD i defaultChunk)))).map
            rebuildResult) := by
      rw [← hcache]
      exact sortByIndex_perm _
    rw [List.map_map] at h0
    exact h0
  have hL6 := completed_map_perm_filter hidx
    (hsorted.imp (fun h => Nat.ne_of_lt h)) hsub
  have hchain : List.Perm res (chunks.map f) := by
    refine hp.trans ?_
    refine (hacc.append_right _).trans ?_
    have h3 := List.filter_append_perm
      (fun c => decide (c.index ∈ st.completed_chunks)) chunks
    have h4 : List.Perm
        ((st.completed_chunks.map (fun i => chunks.getD i defaultChunk)).map f ++
          (chunks.filter
            (fun c => !decide (c.index ∈ st.completed_chunks))).map f)
        (chunks.map f) := by
      rw [← List.map_append]
      exact ((hL6.append_right _).trans h3).map f
    rw [List.map_map] at h4
    exact h4
  have hreseq : res = chunks.map f := sorted_nodup_eq hchain hs hmsorted hmnd
  -- the fresh run
  obtain ⟨res2, ho2, hp2, hs2, _, _⟩ := runLoop_success hkey chunks
    { createNewState name title chunks.length config est with
        status := "processing" }
    (sortByIndex ((createNewState name title chunks.length config
      est).processed_results.map rebuildResult))
    (indices_nodup hidx) (sortByIndex_sorted _)
  have hfreshfilter : chunks.filter
      (fun c => !decide (c.index ∈ ({ createNewState name title chunks.length
        config est with status := "processing" } :
          ProcessingState).completed_chunks)) = chunks := by
    apply List.filter_eq_self.mpr
    intro a _
    simp [createNewState]
  have hchain2 : List.Perm res2 (chunks.map f) := by
    refine hp2.trans ?_
    rw [hfreshfilter]
    show List.Perm (sortByIndex ([].map rebuildResult) ++ chunks.map f) _
    rw [List.map_nil]
    show List.Perm ([] ++ chunks.map f) _
    rw [List.nil_append]
  have hreseq2 : res2 = chunks.map f := sorted_nodup_eq hchain2 hs2 hmsorted hmnd
  refine ⟨?_, ?_, ?_, ?_⟩
  · show (runLoop (fun c => .ok (f c)) false chunks
      { st with status := "processing" }
      (sortByIndex (st.processed_results.map rebuildResult))).outcome = _
    rw [ho, hreseq]
  · show (runLoop (fun c => .ok (f c)) false chunks
      { createNewState name title chunks.length config est with
          status := "processing" }
      (sortByIndex ((createNewState name title chunks.length config
        est).processed_results.map rebuildResult))).outcome = _
    rw [ho2, hreseq2]
  · show [] ++ (runLoop (fun c => .ok (f c)) false chunks
      { st with status := "processing" }
      (sortByIndex (st.processed_results.map rebuildResult))).trace.calls = _
    rw [List.nil_append, hc2]
  · show (((runLoop (fun c => .ok (f c)) false chunks
      { st with status := "processing" }
      (sortByIndex (st.processed_results.map rebuildResult))).trace.progress).filter
        (fun ev => ev.2.2 == "skipped")).length = _
    rw [hsk]

/-- The deterministic remote function used by the C1 witness. -/
def c1f : Chunk → ProcessedChunk :=
  fun c => { sampleRes with chunk_index := c.index, original_text := c.text }

/-- The chunk sequence of the C1 witness. -/
def c1chunks : List Chunk := [simpleChunk 0, simpleChunk 1, simpleChunk 2]

/-- A paused mid-job state of the C1 witness: chunks 0 and 1 completed with
their results cached. -/
def c1State : ProcessingState :=
  { createNewState "c1.srt" "C1" 3 [] 0 with
    status := "paused"
    completed_chunks := [0, 1]
    processed_results := [resultDictOf (c1f (simpleChunk 0)),
      resultDictOf (c1f (simpleChunk 1))] }

/-- Witness for C1 at a concrete input: resuming the paused 3-chunk job
returns the full in-order result list and only calls the remote service
for chunk 2. -/
theorem C1_idempotent_resume_witness :
    (processAllChunks (some c1State) c1chunks (fun c => .ok (c1f c)) false
        true).outcome = .ok (c1chunks.map c1f) ∧
    (processAllChunks (some c1State) c1chunks (fun c => .ok (c1f c)) false
        true).trace.calls =
      (c1chunks.filter
        (fun c => !decide (c.index ∈ c1State.completed_chunks))).map Chunk.index :=
  have h := C1_idempotent_resume c1chunks c1f c1State "c1.srt" "C1" [] 0
    (fun _ => rfl) (by decide) (by decide) (by decide) rfl (by decide)
  ⟨h.1, h.2.2.1⟩

end TranscriptWrite

